import Mathlib

/-!
Verification development for the aero-accounting core: the CSV
ingestion/normalization engine (`parseCSV`, `parseAmount`, `normalizeDate`,
`parseCSVLine`), the deduplication filter (`createTransactionKey`,
`dedupeTransactions`) and the hierarchical category tree engine
(`buildNodePaths`, `collectDescendants`, `updateCategory`, `deleteCategory`,
`categoryOptions`).

Modelling conventions:
* JavaScript strings are Lean `String`s; the handful of JS string primitives
  the code uses (`trim`, `split`, `toLowerCase`, `includes`, `padStart`) are
  re-implemented below on `List Char` so that every definition reduces in the
  kernel.  `trim` and the `\s` regex class are modelled on the four common
  whitespace characters; `toLowerCase` is modelled on ASCII letters (all role
  keywords and separators in the source are ASCII).
* JS numbers are modelled as exact rationals (`Rat`).  The source only ever
  produces amounts by parsing decimal literals and subtracting
  (`credit - debit`), so all arithmetic is expressed through the smart
  constructor `mkRat`, which evaluates by kernel reduction.
* The store (Supabase) is modelled as absent: the category operations are
  pure functions returning either a validation error or the new in-memory
  collection together with the ordered list of `(old label, new label)`
  transaction rewrite calls they would issue.  The claims under study are
  conditioned on store calls succeeding.
* All queries in the source are scoped to the single fixed user id
  (`TEMP_USER_ID`), so `user_id` fields are dropped from the model.
* Freshly generated transaction ids (`Date.now()`-based) are nondeterministic
  and irrelevant to every claim, so the transaction model omits the id field.
-/

/-- The whitespace class used to model JS `trim()` and the regex class `\s`. -/
def isWsChar (c : Char) : Bool :=
  c = ' ' || c = '\t' || c = '\n' || c = '\r'

/-- Drop leading and trailing whitespace from a character list. -/
def trimChars (l : List Char) : List Char :=
  ((l.dropWhile isWsChar).reverse.dropWhile isWsChar).reverse

/-- JS `String.prototype.trim`. -/
def jsTrim (s : String) : String :=
  String.mk (trimChars s.data)

/-- Split a character list on a separator character; like JS
`split(sep)` this always yields at least one (possibly empty) field. -/
def splitChars (sep : Char) : List Char → List (List Char)
  | [] => [[]]
  | c :: rest =>
    match splitChars sep rest, decide (c = sep) with
    | r, true => [] :: r
    | [], false => [[c]]
    | h :: t, false => (c :: h) :: t

/-- JS `String.prototype.split` with a single-character separator. -/
def jsSplit (sep : Char) (s : String) : List String :=
  (splitChars sep s.data).map String.mk

/-- JS `String.prototype.toLowerCase`, modelled on ASCII letters. -/
def jsToLower (s : String) : String :=
  String.mk (s.data.map Char.toLower)

/-- Substring scan over character lists (JS `String.prototype.includes`). -/
def subScan (needle : List Char) : List Char → Bool
  | [] => needle.isEmpty
  | c :: rest => needle.isPrefixOf (c :: rest) || subScan needle rest

/-- JS `hay.includes(needle)`. -/
def jsIncludes (hay needle : String) : Bool :=
  subScan needle.data hay.data

/-- `String(n).padStart(2, '0')` for a natural number. -/
def pad2 (n : Nat) : String :=
  if n < 10 then "0" ++ toString n else toString n

/-- Decimal value of a digit list read most-significant first. -/
def digitsVal (l : List Char) : Nat :=
  l.foldl (fun acc c => 10 * acc + (c.toNat - 48)) 0

/-- The rational `m * 10 ^ e` (`m` an integer mantissa, `e` a decimal
exponent), built with the reducible smart constructor `mkRat`. -/
def decScaled (m : Int) (e : Int) : Rat :=
  if 0 ≤ e then mkRat (m * (10 : Int) ^ e.toNat) 1 else mkRat m ((10 : Nat) ^ (-e).toNat)

/-- Subtraction on rationals, expressed through `mkRat` so that it reduces in
the kernel; `jsSub_eq_sub` below shows it is ordinary subtraction. -/
def jsSub (a b : Rat) : Rat :=
  mkRat (a.num * (b.den : Int) - b.num * (a.den : Int)) (a.den * b.den)

/-- `Number.prototype.toFixed(2)`: round to the integer number of hundredths
nearest to `q * 100`, ties toward the larger integer, then print with exactly
two decimal places. -/
def toFixed2 (q : Rat) : String :=
  let n : Int := Int.fdiv (200 * q.num + (q.den : Int)) (2 * (q.den : Int))
  let m : Nat := n.natAbs
  (if n < 0 then "-" else "") ++ toString (m / 100) ++ "." ++ pad2 (m % 100)

/-- JS `parseFloat`: skip an optional sign, read decimal digits with an
optional fractional part and an optional exponent, ignore any trailing
garbage, and fail (`none`, i.e. `NaN`) when no digits were read.  (The
`Infinity` literals accepted by `parseFloat` never arise from the cleaned
amount strings of this code base and are not modelled.) -/
def jsParseFloat (s : String) : Option Rat :=
  let cs := s.data
  let (neg, cs1) :=
    match cs with
    | '-' :: rest => (true, rest)
    | '+' :: rest => (false, rest)
    | rest => (false, rest)
  let ip := cs1.takeWhile Char.isDigit
  let cs2 := cs1.dropWhile Char.isDigit
  let (fp, cs3) :=
    match cs2 with
    | '.' :: rest => (rest.takeWhile Char.isDigit, rest.dropWhile Char.isDigit)
    | rest => ([], rest)
  if ip.isEmpty && fp.isEmpty then none
  else
    let mantissa : Int := digitsVal (ip ++ fp)
    let signed : Int := if neg then -mantissa else mantissa
    let expVal : Int :=
      match cs3 with
      | 'e' :: rest => readExp rest
      | 'E' :: rest => readExp rest
      | _ => 0
    some (decScaled signed (expVal - fp.length))
where
  /-- Exponent part: optional sign then digits; an exponent marker not
  followed by a digit is trailing garbage and contributes 0. -/
  readExp (l : List Char) : Int :=
    let (eneg, l1) :=
      match l with
      | '-' :: rest => (true, rest)
      | '+' :: rest => (false, rest)
      | rest => (false, rest)
    let ds := l1.takeWhile Char.isDigit
    if ds.isEmpty then 0 else if eneg then -(digitsVal ds : Int) else (digitsVal ds : Int)

/-- A canonical transaction record.  Fields mirror the `Transaction`
interface of the source (`id`, `user_id`, `account_id` omitted, see header). -/
structure Transaction where
  date : String
  description : String
  amount : Rat
  balance : Option Rat
  category : String
  category_id : Option String
  deriving DecidableEq, Repr

/-- The per-owner default bucket's display name (`SYSTEM_CATEGORY_NAME`). -/
def SYSTEM_CATEGORY_NAME : String := "Uncategorized"

/-- The CSV line tokenizer `parseCSVLine`: split on unquoted commas, a double
quote toggles quote mode, each emitted field is trimmed. -/
def parseCSVLine (line : String) : List String :=
  let step := fun (st : List String × List Char × Bool) (c : Char) =>
    let (values, current, inQuotes) := st
    if c = '"' then (values, current, !inQuotes)
    else if c = ',' && !inQuotes then (values ++ [jsTrim (String.mk current.reverse)], [], inQuotes)
    else (values, c :: current, inQuotes)
  let fin := line.data.foldl step ([], [], false)
  fin.1 ++ [jsTrim (String.mk fin.2.1.reverse)]

/-- The character classes deleted by `parseAmount`'s two `replace` calls:
`[R$£€,\s]` and then `[()]` (two successive global character deletions equal
one combined deletion). -/
def strippedChar (c : Char) : Bool :=
  c = 'R' || c = '$' || c = '£' || c = '€' || c = ',' || isWsChar c || c = '(' || c = ')'

/-- The cleaning step of `parseAmount`. -/
def cleanAmount (value : String) : String :=
  String.mk (value.data.filter (fun c => !strippedChar c))

/-- `parseAmount`: remove currency symbols, commas and whitespace, then
parentheses, and `parseFloat` the remainder; `NaN` becomes `0`. -/
def parseAmount (value : String) : Rat :=
  (jsParseFloat (cleanAmount value)).getD 0

/-- The observable result of JS `new Date(string)` when the parse succeeds:
the local-time calendar getters `getFullYear`, `getMonth` (0-based) and
`getDate`.  The generic calendar parser itself is implementation- and
timezone-dependent, so the model is parameterized by an arbitrary oracle
`String → Option JsDate` (`none` models an Invalid Date). -/
structure JsDate where
  year : Int
  month0 : Nat
  day : Nat

/-- Re-emission of a parsed date as `YYYY-MM-DD` (lines 119-122 of the date
normalizer: unpadded `getFullYear`, 2-padded `getMonth()+1` and `getDate()`). -/
def formatJsDate (d : JsDate) : String :=
  toString d.year ++ "-" ++ pad2 (d.month0 + 1) ++ "-" ++ pad2 d.day

/-- The `/^\d{8}$/` test of `normalizeDate`. -/
def eightDigits (s : String) : Bool :=
  s.data.length = 8 && s.data.all Char.isDigit

/-- Positional re-emission of an 8-digit `YYYYMMDD` string as `YYYY-MM-DD`. -/
def yyyymmdd (s : String) : String :=
  String.mk (s.data.take 4) ++ "-" ++ String.mk ((s.data.drop 4).take 2) ++ "-"
    ++ String.mk ((s.data.drop 6).take 2)

/-- `normalizeDate`, parameterized by the calendar-parsing oracle `jd`. -/
def normalizeDate (jd : String → Option JsDate) (value : String) : String :=
  let trimmed := jsTrim value
  if eightDigits trimmed then yyyymmdd trimmed
  else
    match jd trimmed with
    | some parsed => formatJsDate parsed
    | none => trimmed

/-- The header cells of a CSV: first line, plain comma split, trimmed and
lowercased (line 9 of the parser). -/
def csvHeaders (lines : List String) : List String :=
  (jsSplit ',' (lines.headD "")).map (fun h => jsToLower (jsTrim h))

/-- `date` role predicate over a lowercased header cell. -/
def dateRole (h : String) : Bool :=
  jsIncludes h "date" || jsIncludes h "transaction date" || jsIncludes h "posting date"

/-- `description` role predicate. -/
def descRole (h : String) : Bool :=
  jsIncludes h "description" || jsIncludes h "narration" || jsIncludes h "details"
    || jsIncludes h "reference"

/-- `amount` role predicate. -/
def amountRole (h : String) : Bool :=
  jsIncludes h "amount" && !jsIncludes h "balance"

/-- `balance` role predicate. -/
def balanceRole (h : String) : Bool :=
  jsIncludes h "balance" || jsIncludes h "running balance"

/-- `debit` role predicate. -/
def debitRole (h : String) : Bool :=
  jsIncludes h "debit" || jsIncludes h "withdrawal"

/-- `credit` role predicate. -/
def creditRole (h : String) : Bool :=
  jsIncludes h "credit" || jsIncludes h "deposit"

/-- `values[i]`: a JS indexed read past the end yields `undefined`; both
`undefined` and the empty string are falsy, and `parseAmount` is only ever
applied to truthy cells, so `""` is a faithful default. -/
def getCell (values : List String) (i : Nat) : String :=
  values.getD i ""

/-- The amount computation for one tokenized row (lines 47-56 of the parser):
a non-empty amount-role cell wins, otherwise `credit - debit` with absent or
empty cells contributing zero. -/
def rowAmount (amountIdx debitIdx creditIdx : Option Nat) (values : List String) : Rat :=
  match amountIdx with
  | some ai =>
    if getCell values ai ≠ "" then parseAmount (getCell values ai)
    else rowDebitCredit debitIdx creditIdx values
  | none => rowDebitCredit debitIdx creditIdx values
where
  rowDebitCredit (debitIdx creditIdx : Option Nat) (values : List String) : Rat :=
    let debit := match debitIdx with
      | some di => if getCell values di ≠ "" then parseAmount (getCell values di) else 0
      | none => 0
    let credit := match creditIdx with
      | some ci => if getCell values ci ≠ "" then parseAmount (getCell values ci) else 0
      | none => 0
    jsSub credit debit

/-- Processing of one data line of the CSV (lines 39-71 of the parser):
blank lines and rows too short to cover the date/description columns are
skipped, every other row yields one transaction. -/
def processRow (jd : String → Option JsDate)
    (dateIdx descIdx : Nat) (amountIdx balanceIdx debitIdx creditIdx : Option Nat)
    (rawLine : String) : Option Transaction :=
  let line := jsTrim rawLine
  if line = "" then none
  else
    let values := parseCSVLine line
    if values.length ≤ max dateIdx descIdx then none
    else
      let amount := rowAmount amountIdx debitIdx creditIdx values
      let balance := match balanceIdx with
        | some bi => if getCell values bi ≠ "" then some (parseAmount (getCell values bi)) else none
        | none => none
      some
        { date := normalizeDate jd (getCell values dateIdx)
          description := getCell values descIdx
          amount := amount
          balance := balance
          category := "Uncategorized"
          category_id := none }

/-- `parseCSV`: trim the text, split into lines, infer column roles from the
header by case-insensitive substring match, and map every surviving data row
to a transaction.  `Except.error` models the thrown `FormatError`s. -/
def parseCSV (jd : String → Option JsDate) (csvText : String) :
    Except String (List Transaction) :=
  let lines := jsSplit '\n' (jsTrim csvText)
  if lines.length < 2 then
    .error "CSV file must have at least a header row and one data row"
  else
    let headers := csvHeaders lines
    let dateIdx := headers.findIdx? dateRole
    let descIdx := headers.findIdx? descRole
    let amountIdx := headers.findIdx? amountRole
    let balanceIdx := headers.findIdx? balanceRole
    let debitIdx := headers.findIdx? debitRole
    let creditIdx := headers.findIdx? creditRole
    match dateIdx, descIdx with
    | none, _ => .error "Could not find date or description columns. Ensure your CSV has proper headers."
    | _, none => .error "Could not find date or description columns. Ensure your CSV has proper headers."
    | some di, some de =>
      if amountIdx = none && (debitIdx = none || creditIdx = none) then
        .error "Could not find amount, debit, or credit columns."
      else
        .ok ((lines.drop 1).filterMap
          (processRow jd di de amountIdx balanceIdx debitIdx creditIdx))

deriving instance DecidableEq for Except

/-- The dedup fingerprint `createTransactionKey`: trimmed date, `|`, trimmed
lowercased description, `|`, amount to 2 decimal places.  (The source's
`typeof amount === 'number'` / `Number.isFinite` guards are identities here
because modelled amounts are always finite numbers.) -/
def createTransactionKey (t : Transaction) : String :=
  jsTrim t.date ++ "|" ++ jsToLower (jsTrim t.description) ++ "|" ++ toFixed2 t.amount

/-- The deduplication filter of `addTransactions` (lines 54-62): keep a
candidate only when its fingerprint is not among the existing records'
fingerprints nor among fingerprints accepted earlier in the same batch. -/
def dedupeTransactions (existing newTransactions : List Transaction) : List Transaction :=
  let existingKeys := existing.map createTransactionKey
  (newTransactions.foldl
    (fun (st : List Transaction × List String) t =>
      let key := createTransactionKey t
      if key ∈ st.2 then st else (st.1 ++ [t], key :: st.2))
    ([], existingKeys)).1

/-- A category record (`user_id` and timestamps omitted, see header). -/
structure Category where
  id : String
  name : String
  parent_id : Option String
  is_system : Bool
  deriving DecidableEq, Repr

/-- `createChildrenMap` lookup: the children stored under a key, in collection
order (`null` key = roots). -/
def childrenOf (cats : List Category) (key : Option String) : List Category :=
  cats.filter (fun c => c.parent_id = key)

/-- Code-point comparison on character lists, used to model the comparator
callbacks passed to `sort`. -/
def charListLe : List Char → List Char → Bool
  | [], _ => true
  | _ :: _, [] => false
  | a :: as, b :: bs =>
    if a.toNat < b.toNat then true
    else if b.toNat < a.toNat then false
    else charListLe as bs

/-- Code-point string comparison (stand-in for `localeCompare` ordering). -/
def strLe (a b : String) : Bool :=
  charListLe a.data b.data

/-- Stable insertion step for sorting siblings by name. -/
def insertByName (c : Category) : List Category → List Category
  | [] => [c]
  | d :: rest => if strLe c.name d.name then c :: d :: rest else d :: insertByName c rest

/-- Stable sort of siblings by name, modelling the
`sort((a, b) => a.name.localeCompare(b.name))` calls (locale collation is
modelled as code-point order; no claim depends on sibling order). -/
def sortByName (l : List Category) : List Category :=
  l.foldr insertByName []

/-- The recursive `buildNode` of `buildTreeAndPaths`, restricted to the
`pathMap` assignments it performs: visiting a node writes `(id, fullPath)`
and recurses into its name-sorted children.  The recursion of the source has
no termination guard, so the model carries explicit fuel; `stdFuel` below is
enough for every input on which the source terminates. -/
def buildNodePaths (cats : List Category) : Nat → Category → Option String → List (String × String)
  | 0, _, _ => []
  | fuel + 1, c, parentPath =>
    let fullPath := match parentPath with
      | some pp => pp ++ " → " ++ c.name
      | none => c.name
    (c.id, fullPath) ::
      (sortByName (childrenOf cats (some c.id))).flatMap
        (fun child => buildNodePaths cats fuel child (some fullPath))

/-- Fuel that covers the deepest possible acyclic traversal. -/
def stdFuel (cats : List Category) : Nat :=
  cats.length + 1

/-- All `pathMap` assignments of `buildTreeAndPaths`, in traversal order. -/
def pathEntries (cats : List Category) (fuel : Nat) : List (String × String) :=
  (sortByName (childrenOf cats none)).flatMap (fun root => buildNodePaths cats fuel root none)

/-- Reading `pathMap[id]`: JS object assignment is last-write-wins. -/
def pathLookup (cats : List Category) (id : String) : Option String :=
  ((pathEntries cats (stdFuel cats)).filter (fun e => e.1 = id)).getLast?.map (fun e => e.2)

/-- The recursive `collectDescendants` of `buildDescendantsMap`: every child's
id followed by that child's own descendants, in collection order.  The source
recursion has no cycle guard and diverges on cyclic input, which the model
renders as `none` (fuel exhaustion at every fuel). -/
def collectDescendants (cats : List Category) : Nat → String → Option (List String)
  | 0, _ => none
  | fuel + 1, categoryId =>
    (childrenOf cats (some categoryId)).foldr
      (fun child acc =>
        match collectDescendants cats fuel child.id, acc with
        | some nested, some rest => some (child.id :: nested ++ rest)
        | _, _ => none)
      (some [])

/-- `descendantsMap[categoryId] ?? []` as used by `updateCategory` and
`deleteCategory`.  The `getD` arm is only reached on input where the source
itself would diverge (see the C9 analysis); the claims about update/delete
are stated under the hypothesis that the computation terminates. -/
def descendantsOf (cats : List Category) (categoryId : String) : List String :=
  (collectDescendants cats (stdFuel cats) categoryId).getD []

/-- The `updates` argument of `updateCategory`: an optional new name and an
optional new parent (which may itself be `null` = move to root). -/
structure CategoryUpdates where
  name : Option String
  parent_id : Option (Option String)
  deriving DecidableEq, Repr

/-- The field merge performed on the target category (lines 301-310):
the trimmed name when a rename is requested, the new parent when a reparent
is requested. -/
def applyCategoryUpdates (c : Category) (u : CategoryUpdates) : Category :=
  { c with
    name := match u.name with
      | some s => jsTrim s
      | none => c.name
    parent_id := u.parent_id.getD c.parent_id }

/-- JS truthiness of `updates.parent_id`: present, non-null and non-empty. -/
def truthyParent (u : CategoryUpdates) : Option String :=
  match u.parent_id with
  | some (some p) => if p = "" then none else some p
  | _ => none

/-- `updateCategory`: validation, then the category row update, then one
transaction rewrite call `(old path → new path)` per affected id whose
materialized path is defined, non-empty and changed, in affected-id order
(the target first, then its descendants in `collectDescendants` order).
Returns the new in-memory collection and the ordered rewrite calls. -/
def updateCategory (cats : List Category) (categoryId : String) (updates : CategoryUpdates) :
    Except String (List Category × List (String × String)) :=
  match cats.find? (fun c => c.id = categoryId) with
  | none => .error "Category not found"
  | some category =>
    if category.is_system then .error "System categories cannot be modified"
    else
      let parentCheck : Option String :=
        match truthyParent updates with
        | some p =>
          if p = categoryId then some "A category cannot be its own parent"
          else if p ∈ descendantsOf cats categoryId then
            some "A category cannot be moved under one of its subcategories"
          else none
        | none => none
      match parentCheck with
      | some e => .error e
      | none =>
        if nameEmpty updates then .error "Category name is required"
        else
          let affectedIds := categoryId :: descendantsOf cats categoryId
          let updatedCategories := cats.map (fun c =>
            if c.id = categoryId then applyCategoryUpdates c updates else c)
          let rewrites := affectedIds.filterMap (fun aid =>
            match pathLookup cats aid, pathLookup updatedCategories aid with
            | some oldPath, some newPath =>
              if oldPath ≠ "" ∧ newPath ≠ "" ∧ oldPath ≠ newPath then
                some (oldPath, newPath)
              else none
            | _, _ => none)
          .ok (updatedCategories, rewrites)
where
  /-- `updates.name !== undefined && !trimmedName`: a rename to a
  whitespace-only name. -/
  nameEmpty (u : CategoryUpdates) : Bool :=
    match u.name with
    | some s => jsTrim s = ""
    | none => false

/-- `deleteCategory`: validation, then the category row delete, then one
transaction reset call `(path → system label)` per defined non-empty path of
the target and its descendants.  Returns the new in-memory collection (all
affected ids filtered out) and the ordered reset calls. -/
def deleteCategory (cats : List Category) (categoryId : String) :
    Except String (List Category × List (String × String)) :=
  match cats.find? (fun c => c.id = categoryId) with
  | none => .error "Category not found"
  | some category =>
    if category.is_system then .error "System categories cannot be deleted"
    else
      let affectedIds := categoryId :: descendantsOf cats categoryId
      let pathsToReset := (affectedIds.filterMap (pathLookup cats)).filter (fun p => p ≠ "")
      let resets := pathsToReset.map (fun p => (p, SYSTEM_CATEGORY_NAME))
      .ok (cats.filter (fun c => !affectedIds.contains c.id), resets)

/-- The store semantics of the issued rewrite calls: each call
`(old, new)` updates every transaction whose `category` equals `old` to
`new`, and the calls run sequentially in list order. -/
def applyRewrites (rewrites : List (String × String)) (txns : List Transaction) :
    List Transaction :=
  rewrites.foldl
    (fun ts r => ts.map (fun t => if t.category = r.1 then { t with category := r.2 } else t))
    txns

/-- A flattened category option `{id, label, isSystem}`. -/
structure CategoryOption where
  id : String
  label : String
  isSystem : Bool
  deriving DecidableEq, Repr

/-- Stable insertion step for option sorting: system options first, then by
label. -/
def insertOption (o : CategoryOption) : List CategoryOption → List CategoryOption
  | [] => [o]
  | p :: rest =>
    if (o.isSystem && !p.isSystem) || (o.isSystem = p.isSystem && strLe o.label p.label) then
      o :: p :: rest
    else p :: insertOption o rest

/-- `categoryOptions`: on an empty collection a synthesized system
placeholder; otherwise one option per category, labelled by its materialized
path when `pathMap` has one and by its bare name otherwise, sorted
system-first then by label. -/
def categoryOptions (cats : List Category) : List CategoryOption :=
  if cats.isEmpty then
    [{ id := "system-uncategorized", label := SYSTEM_CATEGORY_NAME, isSystem := true }]
  else
    ((cats.map (fun c =>
      { id := c.id
        label := (pathLookup cats c.id).getD c.name
        isSystem := c.is_system : CategoryOption })).foldr insertOption [])

/-- Whether an `Except` result is a failure (a thrown error). -/
def isFailure {α : Type} : Except String α → Bool
  | .error _ => true
  | .ok _ => false

/-- The role index resolved from a CSV text's header row. -/
def csvRoleIdx (csvText : String) (role : String → Bool) : Option Nat :=
  (csvHeaders (jsSplit '\n' (jsTrim csvText))).findIdx? role

/-- The `FormatError` condition exactly as the specification words it: fewer
than 2 lines, or no date role, or no description role, or neither an amount
role nor a complete debit+credit pair. -/
def csvFormatFails (csvText : String) : Bool :=
  ((jsSplit '\n' (jsTrim csvText)).length < 2)
  || (csvRoleIdx csvText dateRole = none)
  || (csvRoleIdx csvText descRole = none)
  || ((csvRoleIdx csvText amountRole = none)
      && ((csvRoleIdx csvText debitRole = none) || (csvRoleIdx csvText creditRole = none)))

/-- The tokenized field lists of the data rows that survive row skipping
(blank lines, rows not covering the date/description columns). -/
def keptRows (dateIdx descIdx : Nat) (csvText : String) : List (List String) :=
  ((jsSplit '\n' (jsTrim csvText)).drop 1).filterMap (fun rawLine =>
    let line := jsTrim rawLine
    if line = "" then none
    else
      let values := parseCSVLine line
      if values.length ≤ max dateIdx descIdx then none else some values)

/-- The amount of one surviving row as the (amended) specification words it:
a present, non-empty amount cell wins and debit/credit are then ignored;
otherwise the amount is `credit - debit` (ordinary rational subtraction),
where an absent role, a missing cell or an empty cell contributes zero. -/
def amountSpec (amountIdx debitIdx creditIdx : Option Nat) (values : List String) : Rat :=
  let debit : Rat := match debitIdx with
    | some di => if getCell values di ≠ "" then parseAmount (getCell values di) else 0
    | none => 0
  let credit : Rat := match creditIdx with
    | some ci => if getCell values ci ≠ "" then parseAmount (getCell values ci) else 0
    | none => 0
  match amountIdx with
  | some ai => if getCell values ai ≠ "" then parseAmount (getCell values ai) else credit - debit
  | none => credit - debit

/-- The per-transaction rewrite described by the claim about `updateCategory`:
a transaction whose label equals some affected id's old path moves to that
id's own new path; every other transaction is untouched. -/
def rewriteBySpec (rewrites : List (String × String)) (t : Transaction) : Transaction :=
  match rewrites.find? (fun r => r.1 = t.category) with
  | some r => { t with category := r.2 }
  | none => t

/-- The update-validation failure condition exactly as the specification
words it, over the descendant set `ds` of the target: target not found,
target is system, new parent is the target itself, new parent is a
descendant, or new name trims to empty. -/
def updateValidationFails (cats : List Category) (categoryId : String)
    (u : CategoryUpdates) (ds : List String) : Bool :=
  cats.all (fun c => !(c.id = categoryId : Bool))
  || cats.any (fun c => (c.id = categoryId : Bool)
      && (c.is_system
        || (u.parent_id = some (some categoryId) : Bool)
        || (match u.parent_id with
            | some (some p) => ds.contains p
            | _ => false)
        || (match u.name with
            | some s => (jsTrim s = "" : Bool)
            | none => false)))

/-- The delete-validation failure condition as the specification words it:
target not found or target is system. -/
def deleteValidationFails (cats : List Category) (categoryId : String) : Bool :=
  cats.all (fun c => !(c.id = categoryId : Bool))
  || cats.any (fun c => (c.id = categoryId : Bool) && c.is_system)

/-- `x` is a strict descendant of the node with id `root`: reachable from
`root` through one or more child edges (a child edge goes from an id to a
member category whose `parent_id` is that id). -/
inductive Descendant (cats : List Category) (root : String) : String → Prop
  | child : ∀ c, c ∈ cats → c.parent_id = some root → Descendant cats root c.id
  | step : ∀ m c, Descendant cats root m → c ∈ cats → c.parent_id = some m →
      Descendant cats root c.id

/-- A member category is reachable when it is a root (null parent) or a
child of a reachable member. -/
inductive Reachable (cats : List Category) : Category → Prop
  | root : ∀ c, c ∈ cats → c.parent_id = none → Reachable cats c
  | child : ∀ p c, Reachable cats p → c ∈ cats → c.parent_id = some p.id → Reachable cats c

/-- The ancestor chain of a member category, listed from its parent up to a
root.  `Reachable` is equivalent to having such a chain. -/
inductive UpChain (cats : List Category) : Category → List Category → Prop
  | root : ∀ c, c ∈ cats → c.parent_id = none → UpChain cats c []
  | step : ∀ c p anc, c ∈ cats → c.parent_id = some p.id → UpChain cats p anc →
      UpChain cats c (p :: anc)

/-- The whole `buildDescendantsMap`: one `collectDescendants` run per member
category, `none` when any of the runs fails to terminate. -/
def buildDescendantsMapOpt (cats : List Category) (fuel : Nat) :
    Option (List (String × List String)) :=
  cats.foldr
    (fun c acc =>
      match collectDescendants cats fuel c.id, acc with
      | some l, some rest => some ((c.id, l) :: rest)
      | _, _ => none)
    (some [])

theorem cleanAmount_paren (s : String) :
    cleanAmount ("(" ++ s ++ ")") = cleanAmount s := by
  simp [cleanAmount, String.data_append, List.filter_append, strippedChar]

/-- C7: the amount normalizer strips currency symbols, thousands separators,
whitespace and parentheses and parses the remainder, leaving the sign
unchanged — in particular wrapping any input in parentheses never changes
(in particular never negates) the result; `"R 1,234.56"` yields `1234.56`,
`"(500.00)"` yields `500.00`, and any input whose cleaned remainder is
unparseable (such as `"garbage"`) yields zero (`parseAmount` is a total
function and never throws). -/
theorem parseAmount_spec :
    (∀ s : String, parseAmount ("(" ++ s ++ ")") = parseAmount s)
    ∧ parseAmount "R 1,234.56" = mkRat 123456 100
    ∧ parseAmount "(500.00)" = mkRat 500 1
    ∧ parseAmount "garbage" = 0
    ∧ (∀ s : String, jsParseFloat (cleanAmount s) = none → parseAmount s = 0) := by
  refine ⟨fun s => ?_, by decide, by decide, by decide, fun s h => ?_⟩
  · rw [parseAmount, parseAmount, cleanAmount_paren]
  · rw [parseAmount, h]; rfl

/-- C7 witness: the parenthesization and unparseable cases evaluated at
concrete inputs through `parseAmount_spec`. -/
theorem parseAmount_spec_witness :
    parseAmount ("(" ++ "R 1,234.56" ++ ")") = parseAmount "R 1,234.56"
    ∧ parseAmount "xyz" = 0 :=
  ⟨parseAmount_spec.1 "R 1,234.56",
   parseAmount_spec.2.2.2.2 "xyz" (by decide)⟩

/-- C8: the date normalizer re-emits a trimmed 8-digit value positionally as
`YYYY-MM-DD` (`20251113` becomes `2025-11-13`); otherwise, when generic
calendar parsing (the oracle `jd`) succeeds it re-emits the parsed local
calendar date as `YYYY-MM-DD`, and on total parse failure it returns the
trimmed raw value unchanged (it is a total function and never throws). -/
theorem normalizeDate_spec :
    (∀ (jd : String → Option JsDate) (s : String),
      (eightDigits (jsTrim s) = true → normalizeDate jd s = yyyymmdd (jsTrim s))
      ∧ (eightDigits (jsTrim s) = false → jd (jsTrim s) = none →
          normalizeDate jd s = jsTrim s)
      ∧ (∀ d, eightDigits (jsTrim s) = false → jd (jsTrim s) = some d →
          normalizeDate jd s = formatJsDate d))
    ∧ (∀ jd, normalizeDate jd "20251113" = "2025-11-13") := by
  refine ⟨fun jd s => ⟨fun h8 => ?_, fun h8 hn => ?_, fun d h8 hs => ?_⟩, fun jd => ?_⟩
  · rw [normalizeDate]; simp only [h8, if_true]
  · rw [normalizeDate]; simp only [h8, Bool.false_eq_true, if_false, hn]
  · rw [normalizeDate]; simp only [h8, Bool.false_eq_true, if_false, hs]
  · rw [normalizeDate]; rfl

/-- C8 witness: the three branches evaluated concretely (passthrough for
`"N/A"` with a failing oracle, formatting for `"13/11/2025"` with an oracle
returning local 2025-11-13, positional split for `"20251113"`). -/
theorem normalizeDate_spec_witness :
    normalizeDate (fun _ => none) "N/A" = "N/A"
    ∧ normalizeDate (fun _ => some ⟨2025, 10, 13⟩) "13/11/2025" = "2025-11-13"
    ∧ normalizeDate (fun _ => none) "20251113" = "2025-11-13" :=
  ⟨((normalizeDate_spec.1 (fun _ => none) "N/A").2.1 (by decide) rfl).trans (by decide),
   ((normalizeDate_spec.1 (fun _ => some ⟨2025, 10, 13⟩) "13/11/2025").2.2
      ⟨2025, 10, 13⟩ (by decide) rfl).trans (by decide),
   normalizeDate_spec.2 (fun _ => none)⟩

/-- A minimal corrupt collection containing a parent-link cycle. -/
def cycleCats : List Category :=
  [{ id := "a", name := "A", parent_id := some "b", is_system := false },
   { id := "b", name := "B", parent_id := some "a", is_system := false }]

/-- C9 (the code, contrary to the claim): on a two-node parent cycle the
descendant collection of `buildDescendantsMap` exhausts every amount of fuel
— the source recursion, which has no visited-set guard, recurses forever
(and never raises a `StructuralError`), and so does the full descendant map
build. -/
theorem collectDescendants_cycle_diverges :
    ∀ fuel : Nat,
      collectDescendants cycleCats fuel "a" = none
      ∧ collectDescendants cycleCats fuel "b" = none
      ∧ buildDescendantsMapOpt cycleCats fuel = none := by
  have main : ∀ fuel : Nat,
      collectDescendants cycleCats fuel "a" = none
      ∧ collectDescendants cycleCats fuel "b" = none := by
    intro fuel
    induction fuel with
    | zero => exact ⟨rfl, rfl⟩
    | succ n ih =>
      constructor
      · simp only [collectDescendants]
        rw [show childrenOf cycleCats (some "a")
            = [{ id := "b", name := "B", parent_id := some "a", is_system := false }] from rfl]
        simp only [List.foldr]
        rw [ih.2]
      · simp only [collectDescendants]
        rw [show childrenOf cycleCats (some "b")
            = [{ id := "a", name := "A", parent_id := some "b", is_system := false }] from rfl]
        simp only [List.foldr]
        rw [ih.1]
  intro fuel
  refine ⟨(main fuel).1, (main fuel).2, ?_⟩
  have h1 := (main fuel).1
  rw [buildDescendantsMapOpt]
  simp only [cycleCats, List.foldr] at h1 ⊢
  rw [h1]

/-- Recursive normal form of the dedup fold: skip a candidate whose key is
in `keys`, otherwise keep it and remember its key. -/
def specDedup (keys : List String) : List Transaction → List Transaction
  | [] => []
  | t :: ts =>
    if createTransactionKey t ∈ keys then specDedup keys ts
    else t :: specDedup (createTransactionKey t :: keys) ts

theorem dedupe_foldl_eq (ts : List Transaction) :
    ∀ (keys : List String) (acc : List Transaction),
      (ts.foldl
        (fun (st : List Transaction × List String) t =>
          let key := createTransactionKey t
          if key ∈ st.2 then st else (st.1 ++ [t], key :: st.2))
        (acc, keys)).1 = acc ++ specDedup keys ts := by
  induction ts with
  | nil => intro keys acc; simp [specDedup]
  | cons t ts ih =>
    intro keys acc
    by_cases h : createTransactionKey t ∈ keys
    · simp only [List.foldl, h, if_pos, specDedup, ih]
    · simp only [List.foldl, h, if_neg, specDedup, if_false, ih, List.append_assoc,
        List.singleton_append]

theorem dedupeTransactions_eq_specDedup (existing batch : List Transaction) :
    dedupeTransactions existing batch
      = specDedup (existing.map createTransactionKey) batch := by
  rw [dedupeTransactions]
  exact (dedupe_foldl_eq batch (existing.map createTransactionKey) []).trans
    (List.nil_append _)

theorem specDedup_sublist (ts : List Transaction) :
    ∀ keys, (specDedup keys ts).Sublist ts := by
  induction ts with
  | nil => intro keys; simp [specDedup]
  | cons t ts ih =>
    intro keys
    rw [specDedup]
    by_cases h : createTransactionKey t ∈ keys
    · simp only [h, if_pos]
      exact (ih keys).cons t
    · simp only [h, if_neg, if_false]
      exact (ih _).cons₂ t

theorem specDedup_key_not_mem (ts : List Transaction) :
    ∀ keys t, t ∈ specDedup keys ts → createTransactionKey t ∉ keys := by
  induction ts with
  | nil => intro keys t h; simp [specDedup] at h
  | cons u ts ih =>
    intro keys t h
    rw [specDedup] at h
    by_cases hu : createTransactionKey u ∈ keys
    · simp only [hu, if_pos] at h
      exact ih keys t h
    · simp only [hu, if_neg, if_false] at h
      rcases List.mem_cons.mp h with rfl | h
      · exact hu
      · intro hk
        exact ih _ t h (List.mem_cons_of_mem _ hk)

theorem specDedup_keys_nodup (ts : List Transaction) :
    ∀ keys, ((specDedup keys ts).map createTransactionKey).Nodup := by
  induction ts with
  | nil => intro keys; simp [specDedup]
  | cons t ts ih =>
    intro keys
    rw [specDedup]
    by_cases h : createTransactionKey t ∈ keys
    · simp only [h, if_pos]
      exact ih keys
    · simp only [h, if_neg, if_false, List.map_cons, List.nodup_cons]
      refine ⟨fun hmem => ?_, ih _⟩
      rcases List.mem_map.mp hmem with ⟨u, hu, hku⟩
      exact specDedup_key_not_mem ts _ u hu (hku ▸ List.mem_cons_self _ _)

theorem specDedup_first_occurrence (pre : List Transaction) :
    ∀ keys t suf, createTransactionKey t ∉ keys →
      createTransactionKey t ∉ pre.map createTransactionKey →
      t ∈ specDedup keys (pre ++ t :: suf) := by
  induction pre with
  | nil =>
    intro keys t suf hk _
    rw [List.nil_append, specDedup]
    simp only [hk, if_neg, if_false]
    exact List.mem_cons_self _ _
  | cons p pre ih =>
    intro keys t suf hk hpre
    have hne : createTransactionKey t ≠ createTransactionKey p := by
      intro h
      exact hpre (h ▸ List.mem_cons_self _ _)
    have hpre' : createTransactionKey t ∉ pre.map createTransactionKey := by
      intro h
      exact hpre (List.mem_cons_of_mem _ h)
    rw [List.cons_append, specDedup]
    by_cases hp : createTransactionKey p ∈ keys
    · simp only [hp, if_pos]
      exact ih keys t suf hk hpre'
    · simp only [hp, if_neg, if_false]
      refine List.mem_cons_of_mem _ (ih _ t suf ?_ hpre')
      intro h
      rcases List.mem_cons.mp h with h | h
      · exact hne h
      · exact hk h

/-- C6: the deduplication filter keeps exactly the subsequence of the batch
whose fingerprint (`createTransactionKey`: trimmed date, `|`, trimmed
lowercased description, `|`, amount to two decimals) is new — the result is
a subsequence of the batch in original order, none of its fingerprints occur
among the existing records, its fingerprints are pairwise distinct
(intra-batch dedup), and every candidate whose fingerprint is absent from
the existing records and from all earlier candidates is kept (first
occurrence wins).  The filter is a pure function, so identical inputs give
identical results. -/
theorem dedupeTransactions_spec (existing batch : List Transaction) :
    (dedupeTransactions existing batch).Sublist batch
    ∧ (∀ t ∈ dedupeTransactions existing batch,
        createTransactionKey t ∉ existing.map createTransactionKey)
    ∧ ((dedupeTransactions existing batch).map createTransactionKey).Nodup
    ∧ (∀ pre t suf, batch = pre ++ t :: suf →
        createTransactionKey t ∉ existing.map createTransactionKey →
        createTransactionKey t ∉ pre.map createTransactionKey →
        t ∈ dedupeTransactions existing batch) := by
  rw [dedupeTransactions_eq_specDedup]
  refine ⟨specDedup_sublist batch _, fun t h => specDedup_key_not_mem batch _ t h,
    specDedup_keys_nodup batch _, fun pre t suf hb hk hpre => ?_⟩
  rw [hb]
  exact specDedup_first_occurrence pre _ t suf hk hpre

/-- Concrete transaction builder used by witnesses. -/
def mkTxn (date description : String) (amount : Rat) (category : String) : Transaction :=
  { date := date, description := description, amount := amount, balance := none,
    category := category, category_id := none }

/-- C6 witness: against an existing `2024-11-01|salary deposit|15000.00`
record, a case-and-whitespace variant of the same row is dropped while a row
differing by one cent is kept, via `dedupeTransactions_spec`. -/
theorem dedupeTransactions_spec_witness :
    (dedupeTransactions
        [mkTxn "2024-11-01" "Salary Deposit" (mkRat 15000 1) "Uncategorized"]
        [mkTxn "2024-11-01" " salary deposit " (mkRat 15000 1) "Uncategorized",
         mkTxn "2024-11-01" "Salary Deposit" (mkRat 1500001 100) "Uncategorized"]).Sublist
      [mkTxn "2024-11-01" " salary deposit " (mkRat 15000 1) "Uncategorized",
       mkTxn "2024-11-01" "Salary Deposit" (mkRat 1500001 100) "Uncategorized"]
    ∧ mkTxn "2024-11-01" "Salary Deposit" (mkRat 1500001 100) "Uncategorized"
        ∈ dedupeTransactions
            [mkTxn "2024-11-01" "Salary Deposit" (mkRat 15000 1) "Uncategorized"]
            [mkTxn "2024-11-01" " salary deposit " (mkRat 15000 1) "Uncategorized",
             mkTxn "2024-11-01" "Salary Deposit" (mkRat 1500001 100) "Uncategorized"] :=
  ⟨(dedupeTransactions_spec
      [mkTxn "2024-11-01" "Salary Deposit" (mkRat 15000 1) "Uncategorized"]
      [mkTxn "2024-11-01" " salary deposit " (mkRat 15000 1) "Uncategorized",
       mkTxn "2024-11-01" "Salary Deposit" (mkRat 1500001 100) "Uncategorized"]).1,
   (dedupeTransactions_spec
      [mkTxn "2024-11-01" "Salary Deposit" (mkRat 15000 1) "Uncategorized"]
      [mkTxn "2024-11-01" " salary deposit " (mkRat 15000 1) "Uncategorized",
       mkTxn "2024-11-01" "Salary Deposit" (mkRat 1500001 100) "Uncategorized"]).2.2.2
      [mkTxn "2024-11-01" " salary deposit " (mkRat 15000 1) "Uncategorized"]
      (mkTxn "2024-11-01" "Salary Deposit" (mkRat 1500001 100) "Uncategorized")
      [] rfl (by decide) (by decide)⟩

/-- C5: `parseCSV` throws a `FormatError` (and produces no transactions)
exactly when the trimmed input has fewer than 2 lines, or no header matches
the date role, or none matches the description role, or neither an
amount-role header nor both a debit-role and a credit-role header exist; on
every other input the row-processing stage is total and the parse succeeds. -/
theorem parseCSV_formatError_iff (jd : String → Option JsDate) (csvText : String) :
    isFailure (parseCSV jd csvText) = csvFormatFails csvText := by
  rw [parseCSV, csvFormatFails, csvRoleIdx, csvRoleIdx, csvRoleIdx, csvRoleIdx, csvRoleIdx]
  generalize csvHeaders (jsSplit '\n' (jsTrim csvText)) = H
  by_cases h2 : (jsSplit '\n' (jsTrim csvText)).length < 2
  · simp [h2, isFailure]
  · simp only [if_neg h2, h2, decide_eq_true_eq, Bool.false_or, decide_eq_false_iff_not,
      not_false_eq_true]
    rcases hd : H.findIdx? dateRole with _ | di
    · simp [hd, isFailure]
    · rcases he : H.findIdx? descRole with _ | de
      · simp [hd, he, isFailure]
      · rcases ha : H.findIdx? amountRole with _ | ai <;>
          rcases hdb : H.findIdx? debitRole with _ | dbi <;>
            rcases hcr : H.findIdx? creditRole with _ | cri <;>
              simp [hd, he, ha, hdb, hcr, isFailure]

theorem jsSub_eq_sub (a b : Rat) : jsSub a b = a - b := by
  rw [jsSub, Rat.mkRat_eq_div]
  have ha : ((a.den : Rat)) ≠ 0 := Nat.cast_ne_zero.mpr a.den_nz
  have hb : ((b.den : Rat)) ≠ 0 := Nat.cast_ne_zero.mpr b.den_nz
  conv_rhs => rw [← Rat.num_div_den a, ← Rat.num_div_den b]
  rw [div_sub_div _ _ ha hb]
  push_cast
  ring_nf

theorem rowAmount_eq_amountSpec (amountIdx debitIdx creditIdx : Option Nat)
    (values : List String) :
    rowAmount amountIdx debitIdx creditIdx values
      = amountSpec amountIdx debitIdx creditIdx values := by
  rcases amountIdx with _ | ai <;>
    simp only [rowAmount, rowAmount.rowDebitCredit, amountSpec, jsSub_eq_sub]

theorem processRow_map_amount (jd : String → Option JsDate)
    (di de : Nat) (ai bi dbi cri : Option Nat) (rawLine : String) :
    (processRow jd di de ai bi dbi cri rawLine).map (fun t => t.amount)
      = (if jsTrim rawLine = "" then none
         else if (parseCSVLine (jsTrim rawLine)).length ≤ max di de then none
         else some (parseCSVLine (jsTrim rawLine))).map (amountSpec ai dbi cri) := by
  rw [processRow]
  by_cases h0 : jsTrim rawLine = ""
  · simp [h0]
  · by_cases h1 : (parseCSVLine (jsTrim rawLine)).length ≤ max di de
    · simp [h0, h1]
    · simp [h0, h1, rowAmount_eq_amountSpec]

/-- C4 counterexample to the claim as stated: with an amount-role header
present, a row whose amount cell is empty does not take the normalized
amount cell (`parseAmount "" = 0`) — the code falls back to debit/credit and
produces `-5` from the debit cell. -/
theorem parseCSV_amountPrecedence_counterexample :
    parseCSV (fun _ => none) "date,description,amount,debit,credit\n2024-01-01,x,,5.00,"
      = .ok [mkTxn "2024-01-01" "x" (mkRat (-5) 1) "Uncategorized"]
    ∧ parseAmount "" = 0
    ∧ mkRat (-5) 1 ≠ (0 : Rat) :=
  ⟨by decide, by decide, by decide⟩

/-- C4 (amended): in every successfully parsed CSV the surviving rows map
one-to-one, in order, to the output amounts, where a row's amount is the
normalized amount-role cell — with debit/credit ignored — whenever the
amount role exists *and* that row's amount cell is non-empty, and otherwise
(amount role absent, or the row's amount cell empty or missing) is
`credit - debit`, a missing or unparseable debit or credit cell contributing
zero. -/
theorem parseCSV_rowAmounts (jd : String → Option JsDate) (csvText : String)
    (di de : Nat) (ts : List Transaction)
    (hd : csvRoleIdx csvText dateRole = some di)
    (he : csvRoleIdx csvText descRole = some de)
    (hok : parseCSV jd csvText = .ok ts) :
    ts.map (fun t => t.amount)
      = (keptRows di de csvText).map
          (amountSpec (csvRoleIdx csvText amountRole) (csvRoleIdx csvText debitRole)
            (csvRoleIdx csvText creditRole)) := by
  rw [csvRoleIdx] at hd he
  rw [parseCSV] at hok
  by_cases h2 : (jsSplit '\n' (jsTrim csvText)).length < 2
  · rw [if_pos h2] at hok
    exact absurd hok (by simp)
  · rw [if_neg h2] at hok
    simp only [hd, he] at hok
    by_cases hb : (decide ((csvHeaders (jsSplit '\n' (jsTrim csvText))).findIdx? amountRole = none)
        && (decide ((csvHeaders (jsSplit '\n' (jsTrim csvText))).findIdx? debitRole = none)
          || decide ((csvHeaders (jsSplit '\n' (jsTrim csvText))).findIdx? creditRole = none)))
        = true
    · rw [if_pos hb] at hok
      exact absurd hok (by simp)
    · rw [if_neg hb] at hok
      have hts := (Except.ok.injEq _ _).mp hok.symm
      rw [hts, keptRows, csvRoleIdx, csvRoleIdx, csvRoleIdx, List.map_filterMap,
        List.map_filterMap]
      congr 1
      funext rawLine
      exact processRow_map_amount jd di de _ _ _ _ rawLine

/-- C4 witness: a three-row CSV in which an amount-role cell wins on the
first row and the debit/credit fallback produces `-850.50` and `+15000.00`
on the other two, via `parseCSV_rowAmounts`. -/
theorem parseCSV_rowAmounts_witness :
    List.map (fun t => t.amount)
        [mkTxn "1/1" "x" (mkRat 7 1) "Uncategorized",
         mkTxn "1/2" "y" (mkRat (-8505) 10) "Uncategorized",
         mkTxn "1/3" "z" (mkRat 15000 1) "Uncategorized"]
      = (keptRows 0 1
          "date,description,amount,debit,credit\n1/1,x,7.00,850.50,\n1/2,y,,850.50,\n1/3,z,,,15000.00").map
          (amountSpec
            (csvRoleIdx
              "date,description,amount,debit,credit\n1/1,x,7.00,850.50,\n1/2,y,,850.50,\n1/3,z,,,15000.00"
              amountRole)
            (csvRoleIdx
              "date,description,amount,debit,credit\n1/1,x,7.00,850.50,\n1/2,y,,850.50,\n1/3,z,,,15000.00"
              debitRole)
            (csvRoleIdx
              "date,description,amount,debit,credit\n1/1,x,7.00,850.50,\n1/2,y,,850.50,\n1/3,z,,,15000.00"
              creditRole)) :=
  parseCSV_rowAmounts (fun _ => none)
    "date,description,amount,debit,credit\n1/1,x,7.00,850.50,\n1/2,y,,850.50,\n1/3,z,,,15000.00"
    0 1
    [mkTxn "1/1" "x" (mkRat 7 1) "Uncategorized",
     mkTxn "1/2" "y" (mkRat (-8505) 10) "Uncategorized",
     mkTxn "1/3" "z" (mkRat 15000 1) "Uncategorized"]
    (by decide) (by decide) (by decide)

theorem collectFold_sub (cats : List Category) (fuel : Nat) (ch : List Category) :
    ∀ (l : List String),
      (ch.foldr (fun child acc =>
          match collectDescendants cats fuel child.id, acc with
          | some nested, some rest => some (child.id :: nested ++ rest)
          | _, _ => none) (some [])) = some l →
      ∀ child ∈ ch, child.id ∈ l ∧ ∃ nested,
        collectDescendants cats fuel child.id = some nested ∧ nested ⊆ l := by
  induction ch with
  | nil =>
    intro l _ child hc
    exact absurd hc (List.not_mem_nil child)
  | cons c ch ih =>
    intro l h child hc
    rw [List.foldr_cons] at h
    rcases hcd : collectDescendants cats fuel c.id with _ | nested <;> rw [hcd] at h
    · exact absurd h (by simp)
    · rcases hacc : (ch.foldr (fun child acc =>
          match collectDescendants cats fuel child.id, acc with
          | some nested, some rest => some (child.id :: nested ++ rest)
          | _, _ => none) (some [])) with _ | rest <;> rw [hacc] at h
      · exact absurd h (by simp)
      · have hl : l = c.id :: nested ++ rest := (Option.some.injEq _ _).mp h.symm
        rcases List.mem_cons.mp hc with rfl | hc'
        · refine ⟨hl ▸ List.mem_cons_self _ _, nested, hcd, fun x hx => ?_⟩
          rw [hl]
          exact List.mem_cons_of_mem _ (List.mem_append_left _ hx)
        · obtain ⟨hid, nested', hcd', hsub⟩ := ih rest hacc child hc'
          refine ⟨?_, nested', hcd', fun x hx => ?_⟩
          · rw [hl]
            exact List.mem_cons_of_mem _ (List.mem_append_right _ hid)
          · rw [hl]
            exact List.mem_cons_of_mem _ (List.mem_append_right _ (hsub hx))

theorem collectFold_mem (cats : List Category) (fuel : Nat) (ch : List Category) :
    ∀ (l : List String),
      (ch.foldr (fun child acc =>
          match collectDescendants cats fuel child.id, acc with
          | some nested, some rest => some (child.id :: nested ++ rest)
          | _, _ => none) (some [])) = some l →
      ∀ x ∈ l, ∃ child ∈ ch, x = child.id ∨ ∃ nested,
        collectDescendants cats fuel child.id = some nested ∧ x ∈ nested := by
  induction ch with
  | nil =>
    intro l h x hx
    rw [List.foldr_nil] at h
    rw [← (Option.some.injEq _ _).mp h] at hx
    exact absurd hx (List.not_mem_nil x)
  | cons c ch ih =>
    intro l h x hx
    rw [List.foldr_cons] at h
    rcases hcd : collectDescendants cats fuel c.id with _ | nested <;> rw [hcd] at h
    · exact absurd h (by simp)
    · rcases hacc : (ch.foldr (fun child acc =>
          match collectDescendants cats fuel child.id, acc with
          | some nested, some rest => some (child.id :: nested ++ rest)
          | _, _ => none) (some [])) with _ | rest <;> rw [hacc] at h
      · exact absurd h (by simp)
      · have hl : l = c.id :: nested ++ rest := (Option.some.injEq _ _).mp h.symm
        rw [hl] at hx
        rcases List.mem_cons.mp hx with rfl | hx'
        · exact ⟨c, List.mem_cons_self _ _, Or.inl rfl⟩
        · rcases List.mem_append.mp hx' with hn | hr
          · exact ⟨c, List.mem_cons_self _ _, Or.inr ⟨nested, hcd, hn⟩⟩
          · obtain ⟨child, hch, hor⟩ := ih rest hacc x hr
            exact ⟨child, List.mem_cons_of_mem _ hch, hor⟩

theorem collectDescendants_mem_cats (cats : List Category) :
    ∀ (fuel : Nat) (root : String) (l : List String),
      collectDescendants cats fuel root = some l →
      ∀ x ∈ l, ∃ c ∈ cats, c.id = x := by
  intro fuel
  induction fuel with
  | zero =>
    intro root l h
    exact absurd h (by rw [collectDescendants]; simp)
  | succ n ih =>
    intro root l h x hx
    rw [collectDescendants] at h
    obtain ⟨child, hch, hor⟩ := collectFold_mem cats n _ l h x hx
    have hchc : child ∈ cats := List.mem_filter.mp hch |>.1
    rcases hor with rfl | ⟨nested, hcd, hn⟩
    · exact ⟨child, hchc, rfl⟩
    · exact ih child.id nested hcd x hn

theorem collectDescendants_sub (cats : List Category) :
    ∀ (fuel : Nat) (root : String) (l : List String),
      collectDescendants cats fuel root = some l →
      ∀ m ∈ l, ∃ fuel₂ l₂, fuel₂ < fuel ∧ collectDescendants cats fuel₂ m = some l₂ ∧ l₂ ⊆ l := by
  intro fuel
  induction fuel with
  | zero =>
    intro root l h
    exact absurd h (by rw [collectDescendants]; simp)
  | succ n ih =>
    intro root l h m hm
    rw [collectDescendants] at h
    obtain ⟨child, hch, hor⟩ := collectFold_mem cats n _ l h m hm
    rcases hor with rfl | ⟨nested, hcd, hn⟩
    · obtain ⟨_, nested, hcd, hsub⟩ := collectFold_sub cats n _ l h child hch
      exact ⟨n, nested, Nat.lt_succ_self n, hcd, hsub⟩
    · obtain ⟨f₂, l₂, hf₂, hcd₂, hsub₂⟩ := ih child.id nested hcd m hn
      obtain ⟨_, nested', hcd', hsub'⟩ := collectFold_sub cats n _ l h child hch
      have : nested' = nested := by rw [hcd'] at hcd; exact (Option.some.injEq _ _).mp hcd
      exact ⟨f₂, l₂, Nat.lt_trans hf₂ (Nat.lt_succ_self n), hcd₂,
        fun x hx => (this ▸ hsub') (hsub₂ hx)⟩

theorem Descendant_compose (cats : List Category) (root m x : String)
    (h1 : Descendant cats root m) (h2 : Descendant cats m x) : Descendant cats root x := by
  induction h2 with
  | child c hc hp => exact Descendant.step m c h1 hc hp
  | step m' c _ hc hp ih => exact Descendant.step m' c ih hc hp

theorem collectDescendants_descendant (cats : List Category) :
    ∀ (fuel : Nat) (root : String) (l : List String),
      collectDescendants cats fuel root = some l →
      ∀ x ∈ l, Descendant cats root x := by
  intro fuel
  induction fuel with
  | zero =>
    intro root l h
    exact absurd h (by rw [collectDescendants]; simp)
  | succ n ih =>
    intro root l h x hx
    rw [collectDescendants] at h
    obtain ⟨child, hch, hor⟩ := collectFold_mem cats n _ l h x hx
    have hchc : child ∈ cats := List.mem_filter.mp hch |>.1
    have hpar : child.parent_id = some root := by
      have := List.mem_filter.mp hch |>.2
      exact of_decide_eq_true this
    rcases hor with rfl | ⟨nested, hcd, hn⟩
    · exact Descendant.child child hchc hpar
    · exact Descendant_compose cats root child.id x (Descendant.child child hchc hpar)
        (ih child.id nested hcd x hn)

theorem collectDescendants_child_mem (cats : List Category) (fuel : Nat) (root : String)
    (l : List String) (h : collectDescendants cats (fuel + 1) root = some l)
    (c : Category) (hc : c ∈ cats) (hp : c.parent_id = some root) : c.id ∈ l := by
  rw [collectDescendants] at h
  have hch : c ∈ childrenOf cats (some root) :=
    List.mem_filter.mpr ⟨hc, decide_eq_true hp⟩
  exact (collectFold_sub cats fuel _ l h c hch).1

theorem descendant_mem_collect (cats : List Category) (root x : String)
    (hd : Descendant cats root x) :
    ∀ (fuel : Nat) (l : List String), collectDescendants cats fuel root = some l → x ∈ l := by
  induction hd with
  | child c hc hp =>
    intro fuel l h
    rcases fuel with _ | n
    · exact absurd h (by rw [collectDescendants]; simp)
    · exact collectDescendants_child_mem cats n root l h c hc hp
  | step m c _ hc hp ih =>
    intro fuel l h
    have hm : m ∈ l := by
      rcases fuel with _ | n
      · exact absurd h (by rw [collectDescendants]; simp)
      · exact ih (n + 1) l h
    obtain ⟨f₂, l₂, _, hcd₂, hsub₂⟩ := collectDescendants_sub cats fuel root l h m hm
    rcases f₂ with _ | k
    · exact absurd hcd₂ (by rw [collectDescendants]; simp)
    · exact hsub₂ (collectDescendants_child_mem cats k m l₂ hcd₂ c hc hp)

/-- Membership in a successful `collectDescendants` run is exactly strict
descendancy through child edges. -/
theorem collectDescendants_iff_descendant (cats : List Category) (fuel : Nat) (root : String)
    (l : List String) (h : collectDescendants cats fuel root = some l) (x : String) :
    x ∈ l ↔ Descendant cats root x :=
  ⟨fun hx => collectDescendants_descendant cats fuel root l h x hx,
   fun hd => descendant_mem_collect cats root x hd fuel l h⟩

theorem updateCategory_isFailure (cats : List Category) (categoryId : String)
    (u : CategoryUpdates) (ds : List String)
    (hids : ∀ c ∈ cats, c.id ≠ "")
    (hnodup : (cats.map (fun c => c.id)).Nodup)
    (hds : collectDescendants cats (stdFuel cats) categoryId = some ds) :
    isFailure (updateCategory cats categoryId u)
      = updateValidationFails cats categoryId u ds := by
  rw [updateValidationFails]
  rcases hf : cats.find? (fun c => c.id = categoryId) with _ | c
  · have hall : cats.all (fun c => !(c.id = categoryId : Bool)) = true := by
      rw [List.all_eq_true]
      intro x hx
      have := List.find?_eq_none.mp hf x hx
      simpa using this
    simp [updateCategory, hf, isFailure, hall]
  · have hcm : c ∈ cats := List.mem_of_find?_eq_some hf
    have hcid : c.id = categoryId := by simpa using List.find?_some hf
    have hall : cats.all (fun c => !(c.id = categoryId : Bool)) = false := by
      apply Bool.eq_false_iff.mpr
      intro hall
      have := List.all_eq_true.mp hall c hcm
      rw [hcid] at this
      simp at this
    have hdesc : descendantsOf cats categoryId = ds := by
      rw [descendantsOf, hds]
      rfl
    have hany_iff : (cats.any (fun c' => (c'.id = categoryId : Bool)
        && (c'.is_system || (u.parent_id = some (some categoryId) : Bool)
          || (match u.parent_id with | some (some p) => ds.contains p | _ => false)
          || (match u.name with | some s => (jsTrim s = "" : Bool) | none => false))) = true)
        ↔ (c.is_system || (u.parent_id = some (some categoryId) : Bool)
          || (match u.parent_id with | some (some p) => ds.contains p | _ => false)
          || (match u.name with | some s => (jsTrim s = "" : Bool) | none => false)) = true := by
      constructor
      · intro h
        obtain ⟨x, hx, hxx⟩ := List.any_eq_true.mp h
        rw [Bool.and_eq_true] at hxx
        obtain ⟨hx1, hx2⟩ := hxx
        have hxid : x.id = categoryId := by simpa using hx1
        have hxc : x = c :=
          List.inj_on_of_nodup_map hnodup hx hcm (hxid.trans hcid.symm)
        exact hxc ▸ hx2
      · intro h
        exact List.any_eq_true.mpr ⟨c, hcm, by rw [hcid]; simpa using h⟩
    rw [hall, Bool.false_or]
    apply Bool.eq_iff_iff.mpr
    rw [hany_iff]
    rcases hsys : c.is_system
    · rcases hu : u.parent_id with _ | op
      · simp only [updateCategory, hf, hsys, truthyParent, hu, Bool.false_or]
        rcases hn : u.name with _ | s
        · simp [isFailure, updateCategory.nameEmpty, hn]
        · by_cases hne : jsTrim s = "" <;>
            simp [isFailure, updateCategory.nameEmpty, hn, hne]
      · rcases op with _ | p
        · simp only [updateCategory, hf, hsys, truthyParent, hu, Bool.false_or]
          rcases hn : u.name with _ | s
          · simp [isFailure, updateCategory.nameEmpty, hn]
          · by_cases hne : jsTrim s = "" <;>
              simp [isFailure, updateCategory.nameEmpty, hn, hne]
        · have hcidne : categoryId ≠ "" := hcid ▸ hids c hcm
          by_cases hp0 : p = ""
          · subst hp0
            have hnotds : ds.contains "" = false := by
              apply Bool.eq_false_iff.mpr
              intro hmem
              obtain ⟨c', hc', hid'⟩ :=
                collectDescendants_mem_cats cats (stdFuel cats) categoryId ds hds ""
                  (List.elem_iff.mp hmem)
              exact hids c' hc' hid'
            simp only [updateCategory, hf, hsys, truthyParent, hu, if_pos rfl, hnotds]
            rcases hn : u.name with _ | s
            · simp [isFailure, updateCategory.nameEmpty, hn, hcidne.symm]
            · by_cases hne : jsTrim s = "" <;>
                simp [isFailure, updateCategory.nameEmpty, hn, hne, hcidne.symm]
          · by_cases hpc : p = categoryId
            · subst hpc
              simp [updateCategory, hf, hsys, truthyParent, hu, hp0, isFailure]
            · by_cases hmem : p ∈ ds
              · have hcont : ds.contains p = true := List.elem_iff.mpr hmem
                simp [updateCategory, hf, hsys, truthyParent, hu, hp0, hpc, hdesc, hmem,
                  isFailure, hcont]
              · have hcont : ds.contains p = false := by
                  apply Bool.eq_false_iff.mpr
                  intro h'
                  exact hmem (List.elem_iff.mp h')
                simp only [updateCategory, hf, hsys, truthyParent, hu, if_neg hp0, hdesc,
                  if_neg hpc, if_neg hmem, hcont]
                rcases hn : u.name with _ | s
                · simp [isFailure, updateCategory.nameEmpty, hn, hpc]
                · by_cases hne : jsTrim s = "" <;>
                    simp [isFailure, updateCategory.nameEmpty, hn, hne, hpc]
    · have hany : c.is_system = true := hsys
      simp [updateCategory, hf, hsys, isFailure]

theorem deleteCategory_isFailure (cats : List Category) (categoryId : String)
    (hnodup : (cats.map (fun c => c.id)).Nodup) :
    isFailure (deleteCategory cats categoryId) = deleteValidationFails cats categoryId := by
  rw [deleteValidationFails]
  rcases hf : cats.find? (fun c => c.id = categoryId) with _ | c
  · have hall : cats.all (fun c => !(c.id = categoryId : Bool)) = true := by
      rw [List.all_eq_true]
      intro x hx
      have := List.find?_eq_none.mp hf x hx
      simpa using this
    simp [deleteCategory, hf, isFailure, hall]
  · have hcm : c ∈ cats := List.mem_of_find?_eq_some hf
    have hcid : c.id = categoryId := by simpa using List.find?_some hf
    have hall : cats.all (fun c => !(c.id = categoryId : Bool)) = false := by
      apply Bool.eq_false_iff.mpr
      intro hall
      have := List.all_eq_true.mp hall c hcm
      rw [hcid] at this
      simp at this
    have hany_iff : (cats.any (fun c' => (c'.id = categoryId : Bool) && c'.is_system) = true)
        ↔ c.is_system = true := by
      constructor
      · intro h
        obtain ⟨x, hx, hxx⟩ := List.any_eq_true.mp h
        rw [Bool.and_eq_true] at hxx
        obtain ⟨hx1, hx2⟩ := hxx
        have hxid : x.id = categoryId := by simpa using hx1
        have hxc : x = c :=
          List.inj_on_of_nodup_map hnodup hx hcm (hxid.trans hcid.symm)
        exact hxc ▸ hx2
      · intro h
        exact List.any_eq_true.mpr ⟨c, hcm, by rw [hcid]; simpa using h⟩
    rw [hall, Bool.false_or]
    apply Bool.eq_iff_iff.mpr
    rw [hany_iff]
    rcases hsys : c.is_system <;> simp [deleteCategory, hf, hsys, isFailure]

/-- C2: a category Update or Delete call throws exactly when it violates the
claimed validation conditions (target not found; target is system; new name
trims to empty; new parent equal to the target's own id; new parent inside
the target's descendant set — delete: the first two).  The model's failing
calls return `Except.error` straight from the validation prefix of the
source, which runs before the category write and before any transaction
rewrite, so a failing call issues no persistence call and leaves the
in-memory collection and every transaction unchanged; conversely a
successful call is one that passed validation.  Hypotheses: store-generated
ids are UUIDs (non-empty, unique — `id UUID PRIMARY KEY` in the schema), and
the descendant computation terminates on the current collection. -/
theorem categoryValidation_failfast (cats : List Category) (categoryId : String)
    (u : CategoryUpdates) (ds : List String)
    (hids : ∀ c ∈ cats, c.id ≠ "")
    (hnodup : (cats.map (fun c => c.id)).Nodup)
    (hds : collectDescendants cats (stdFuel cats) categoryId = some ds) :
    (isFailure (updateCategory cats categoryId u)
        = updateValidationFails cats categoryId u ds)
    ∧ (isFailure (deleteCategory cats categoryId) = deleteValidationFails cats categoryId)
    ∧ (∀ r, updateCategory cats categoryId u = .ok r →
        updateValidationFails cats categoryId u ds = false)
    ∧ (∀ r, deleteCategory cats categoryId = .ok r →
        deleteValidationFails cats categoryId = false) := by
  have hu := updateCategory_isFailure cats categoryId u ds hids hnodup hds
  have hd := deleteCategory_isFailure cats categoryId hnodup
  refine ⟨hu, hd, fun r hr => ?_, fun r hr => ?_⟩
  · rw [← hu, hr]
    rfl
  · rw [← hd, hr]
    rfl

/-- C2 witness: on a concrete three-node collection, the equivalence applied
to an update that both self-trims its name to empty and reparents under a
descendant, and to a delete of the same node, via
`categoryValidation_failfast`. -/
theorem categoryValidation_failfast_witness :
    (isFailure (updateCategory
        [{ id := "sys", name := "Uncategorized", parent_id := none, is_system := true },
         { id := "r", name := "Transport", parent_id := none, is_system := false },
         { id := "c", name := "Fuel", parent_id := some "r", is_system := false }]
        "r" { name := some " ", parent_id := some (some "c") })
      = updateValidationFails
          [{ id := "sys", name := "Uncategorized", parent_id := none, is_system := true },
           { id := "r", name := "Transport", parent_id := none, is_system := false },
           { id := "c", name := "Fuel", parent_id := some "r", is_system := false }]
          "r" { name := some " ", parent_id := some (some "c") } ["c"])
    ∧ (isFailure (deleteCategory
        [{ id := "sys", name := "Uncategorized", parent_id := none, is_system := true },
         { id := "r", name := "Transport", parent_id := none, is_system := false },
         { id := "c", name := "Fuel", parent_id := some "r", is_system := false }]
        "r")
      = deleteValidationFails
          [{ id := "sys", name := "Uncategorized", parent_id := none, is_system := true },
           { id := "r", name := "Transport", parent_id := none, is_system := false },
           { id := "c", name := "Fuel", parent_id := some "r", is_system := false }]
          "r") :=
  ⟨(categoryValidation_failfast
      [{ id := "sys", name := "Uncategorized", parent_id := none, is_system := true },
       { id := "r", name := "Transport", parent_id := none, is_system := false },
       { id := "c", name := "Fuel", parent_id := some "r", is_system := false }]
      "r" { name := some " ", parent_id := some (some "c") } ["c"]
      (by decide) (by decide) (by decide)).1,
   (categoryValidation_failfast
      [{ id := "sys", name := "Uncategorized", parent_id := none, is_system := true },
       { id := "r", name := "Transport", parent_id := none, is_system := false },
       { id := "c", name := "Fuel", parent_id := some "r", is_system := false }]
      "r" { name := some " ", parent_id := some (some "c") } ["c"]
      (by decide) (by decide) (by decide)).2.1⟩

theorem applyRewrites_eq_map (rws : List (String × String)) :
    ∀ txns, applyRewrites rws txns
      = txns.map (fun t => rws.foldl
          (fun t r => if t.category = r.1 then { t with category := r.2 } else t) t) := by
  induction rws with
  | nil =>
    intro txns
    simp [applyRewrites]
  | cons r rest ih =>
    intro txns
    rw [applyRewrites, List.foldl_cons, ← applyRewrites, ih, List.map_map]
    rfl

theorem foldl_step_id (rws : List (String × String)) :
    ∀ (t : Transaction), (∀ r ∈ rws, t.category ≠ r.1) →
      rws.foldl (fun t r => if t.category = r.1 then { t with category := r.2 } else t) t
        = t := by
  induction rws with
  | nil => intro t _; rfl
  | cons r rest ih =>
    intro t h
    rw [List.foldl_cons, if_neg (h r (List.mem_cons_self _ _))]
    exact ih t (fun r' hr' => h r' (List.mem_cons_of_mem _ hr'))

theorem foldl_step_eq_rewriteBySpec (rws : List (String × String))
    (hchain : rws.Pairwise (fun a b => a.2 ≠ b.1)) :
    ∀ (t : Transaction),
      rws.foldl (fun t r => if t.category = r.1 then { t with category := r.2 } else t) t
        = rewriteBySpec rws t := by
  induction rws with
  | nil => intro t; simp [rewriteBySpec]
  | cons r rest ih =>
    intro t
    have hpair := List.pairwise_cons.mp hchain
    rw [List.foldl_cons]
    by_cases hc : t.category = r.1
    · rw [if_pos hc]
      rw [foldl_step_id rest _ (fun r' hr' => hpair.1 r' hr')]
      rw [rewriteBySpec, List.find?_cons_of_pos _ (by simpa using hc.symm)]
    · rw [if_neg hc]
      rw [ih hpair.2 t, rewriteBySpec, rewriteBySpec,
        List.find?_cons_of_neg _ (by simpa using fun h => hc h.symm)]

theorem updateCategory_ok_inv (cats : List Category) (categoryId : String)
    (u : CategoryUpdates) (newCats : List Category) (rws : List (String × String))
    (hok : updateCategory cats categoryId u = .ok (newCats, rws)) :
    newCats = cats.map (fun c => if c.id = categoryId then applyCategoryUpdates c u else c)
    ∧ rws = (categoryId :: descendantsOf cats categoryId).filterMap (fun aid =>
        match pathLookup cats aid, pathLookup newCats aid with
        | some oldPath, some newPath =>
          if oldPath ≠ "" ∧ newPath ≠ "" ∧ oldPath ≠ newPath then some (oldPath, newPath)
          else none
        | _, _ => none) := by
  rw [updateCategory] at hok
  dsimp only at hok
  split at hok
  · exact absurd hok (by simp)
  · split at hok
    · exact absurd hok (by simp)
    · split at hok
      · exact absurd hok (by simp)
      · split at hok
        · exact absurd hok (by simp)
        · injection hok with h
          rw [Prod.mk.injEq] at h
          obtain ⟨h1, h2⟩ := h
          refine ⟨h1.symm, ?_⟩
          rw [← h1]
          exact h2.symm

/-- C1 (amended): for a successful category update, provided the issued
rewrite list does not chain — no rewrite's new path equals the old path of a
rewrite issued after it — the sequential store updates are equivalent to the
per-transaction rule of the claim (`rewriteBySpec`): a transaction whose
label exactly equals some affected id's old full path moves to that id's own
new full path, and every other transaction — including one whose label
coincidentally equals a new path but matched no old path — is untouched.
Moreover a rewrite is issued exactly for the affected ids (the updated
category and its descendants) whose materialized path is defined, non-empty
and changed.  Without the non-chaining proviso the sequential per-id updates
re-match transactions rewritten by an earlier pair (see the counterexample,
where a renamed category's new path equals its descendant's old path). -/
theorem updateCategory_cascade (cats : List Category) (categoryId : String)
    (u : CategoryUpdates) (newCats : List Category) (rws : List (String × String))
    (hok : updateCategory cats categoryId u = .ok (newCats, rws))
    (hchain : rws.Pairwise (fun a b => a.2 ≠ b.1)) :
    (∀ txns, applyRewrites rws txns = txns.map (rewriteBySpec rws))
    ∧ (∀ r ∈ rws, ∃ aid ∈ categoryId :: descendantsOf cats categoryId,
        pathLookup cats aid = some r.1 ∧ pathLookup newCats aid = some r.2
        ∧ r.1 ≠ "" ∧ r.2 ≠ "" ∧ r.1 ≠ r.2)
    ∧ (∀ aid oldPath newPath, aid ∈ categoryId :: descendantsOf cats categoryId →
        pathLookup cats aid = some oldPath → pathLookup newCats aid = some newPath →
        oldPath ≠ "" → newPath ≠ "" → oldPath ≠ newPath → (oldPath, newPath) ∈ rws) := by
  obtain ⟨hnc, hrws⟩ := updateCategory_ok_inv cats categoryId u newCats rws hok
  refine ⟨fun txns => ?_, fun r hr => ?_, fun aid oldPath newPath ha hop hnp h1 h2 h3 => ?_⟩
  · rw [applyRewrites_eq_map]
    simp only [foldl_step_eq_rewriteBySpec rws hchain]
  · rw [hrws] at hr
    obtain ⟨aid, ha, hf⟩ := List.mem_filterMap.mp hr
    rcases hop : pathLookup cats aid with _ | oldPath <;> rw [hop] at hf
    · exact absurd hf (by simp)
    · rcases hnp : pathLookup newCats aid with _ | newPath <;> rw [hnp] at hf
      · exact absurd hf (by simp)
      · dsimp only at hf
        by_cases hcond : oldPath ≠ "" ∧ newPath ≠ "" ∧ oldPath ≠ newPath
        · rw [if_pos hcond] at hf
          have : (oldPath, newPath) = r := (Option.some.injEq _ _).mp hf
          subst this
          exact ⟨aid, ha, hop, hnp, hcond.1, hcond.2.1, hcond.2.2⟩
        · rw [if_neg hcond] at hf
          exact absurd hf (by simp)
  · rw [hrws]
    refine List.mem_filterMap.mpr ⟨aid, ha, ?_⟩
    rw [hop, hnp]
    dsimp only
    rw [if_pos ⟨h1, h2, h3⟩]

/-- C1 counterexample to the claim as stated: renaming the root `"A"` (with
a child also named `"A"`) to `"A → A"` issues the chained rewrite pairs
`("A", "A → A")` then `("A → A", "A → A → A")`; a transaction labelled
`"A"` — exactly the root's old path — ends at `"A → A → A"`, not at the
root's own new path `"A → A"` required by the claim. -/
theorem updateCategory_cascade_counterexample :
    updateCategory
        [{ id := "r", name := "A", parent_id := none, is_system := false },
         { id := "c", name := "A", parent_id := some "r", is_system := false }]
        "r" { name := some "A → A", parent_id := none }
      = .ok ([{ id := "r", name := "A → A", parent_id := none, is_system := false },
              { id := "c", name := "A", parent_id := some "r", is_system := false }],
             [("A", "A → A"), ("A → A", "A → A → A")])
    ∧ applyRewrites [("A", "A → A"), ("A → A", "A → A → A")]
        [mkTxn "d" "x" 0 "A"] = [mkTxn "d" "x" 0 "A → A → A"]
    ∧ [mkTxn "d" "x" 0 "A"].map (rewriteBySpec [("A", "A → A"), ("A → A", "A → A → A")])
        = [mkTxn "d" "x" 0 "A → A"]
    ∧ mkTxn "d" "x" 0 "A → A → A" ≠ mkTxn "d" "x" 0 "A → A" :=
  ⟨by decide, by decide, by decide, by decide⟩

/-- C1 witness: the rename-cascade scenario (`"Transport"` with child
`"Fuel"` renamed to `"Travel"`): the issued rewrites applied to a
transaction labelled `"Transport → Fuel"` and a pre-existing one labelled
`"Travel → Fuel"` coincide with the per-transaction rule, via
`updateCategory_cascade`. -/
theorem updateCategory_cascade_witness :
    applyRewrites [("Transport", "Travel"), ("Transport → Fuel", "Travel → Fuel")]
        [mkTxn "d" "x" 0 "Transport → Fuel", mkTxn "d" "y" 0 "Travel → Fuel"]
      = [mkTxn "d" "x" 0 "Transport → Fuel", mkTxn "d" "y" 0 "Travel → Fuel"].map
          (rewriteBySpec [("Transport", "Travel"), ("Transport → Fuel", "Travel → Fuel")]) :=
  (updateCategory_cascade
    [{ id := "r", name := "Transport", parent_id := none, is_system := false },
     { id := "c", name := "Fuel", parent_id := some "r", is_system := false }]
    "r" { name := some "Travel", parent_id := none }
    [{ id := "r", name := "Travel", parent_id := none, is_system := false },
     { id := "c", name := "Fuel", parent_id := some "r", is_system := false }]
    [("Transport", "Travel"), ("Transport → Fuel", "Travel → Fuel")]
    (by decide) (by decide)).1
    [mkTxn "d" "x" 0 "Transport → Fuel", mkTxn "d" "y" 0 "Travel → Fuel"]

theorem mem_insertByName (c x : Category) :
    ∀ (l : List Category), x ∈ insertByName c l ↔ x = c ∨ x ∈ l := by
  intro l
  induction l with
  | nil => simp [insertByName]
  | cons d rest ih =>
    rw [insertByName]
    by_cases h : strLe c.name d.name
    · rw [if_pos h]
      simp only [List.mem_cons]
    · rw [if_neg h]
      simp only [List.mem_cons, ih]
      tauto

theorem mem_sortByName (x : Category) :
    ∀ (l : List Category), x ∈ sortByName l ↔ x ∈ l := by
  intro l
  induction l with
  | nil => simp [sortByName]
  | cons c rest ih =>
    rw [sortByName, List.foldr_cons, ← sortByName, mem_insertByName, ih, List.mem_cons]

theorem childrenOf_mem (cats : List Category) (key : Option String) (c : Category)
    (h : c ∈ childrenOf cats key) : c ∈ cats ∧ c.parent_id = key := by
  have := List.mem_filter.mp h
  exact ⟨this.1, of_decide_eq_true this.2⟩

theorem buildNodePaths_entry (cats : List Category) :
    ∀ (fuel : Nat) (c : Category) (pp : Option String), c ∈ cats →
      ∀ e ∈ buildNodePaths cats fuel c pp,
        (∃ c' ∈ cats, e.1 = c'.id)
        ∧ ((∀ c' ∈ cats, c'.name ≠ "") → e.2 ≠ "") := by
  intro fuel
  induction fuel with
  | zero =>
    intro c pp _ e he
    rw [buildNodePaths.eq_def] at he
    exact absurd he (List.not_mem_nil e)
  | succ n ih =>
    intro c pp hc e he
    rw [buildNodePaths.eq_def] at he
    dsimp only at he
    rcases List.mem_cons.mp he with rfl | he'
    · refine ⟨⟨c, hc, rfl⟩, fun hnames => ?_⟩
      rcases pp with _ | p
      · exact hnames c hc
      · intro habs
        have := congrArg String.data habs
        simp [String.data_append] at this
    · obtain ⟨child, hch, hce⟩ := List.mem_flatMap.mp he'
      have hchm : child ∈ cats :=
        (childrenOf_mem cats (some c.id) child ((mem_sortByName child _).mp hch)).1
      exact ih child _ hchm e hce

theorem pathEntries_entry (cats : List Category) (fuel : Nat) (e : String × String)
    (he : e ∈ pathEntries cats fuel) :
    (∃ c' ∈ cats, e.1 = c'.id) ∧ ((∀ c' ∈ cats, c'.name ≠ "") → e.2 ≠ "") := by
  rw [pathEntries] at he
  obtain ⟨root, hr, hre⟩ := List.mem_flatMap.mp he
  have hrm : root ∈ cats :=
    (childrenOf_mem cats none root ((mem_sortByName root _).mp hr)).1
  exact buildNodePaths_entry cats fuel root none hrm e hre

theorem pathLookup_mem_entries (cats : List Category) (id v : String)
    (h : pathLookup cats id = some v) : (id, v) ∈ pathEntries cats (stdFuel cats) := by
  rw [pathLookup] at h
  obtain ⟨e, hlast, hv⟩ := Option.map_eq_some'.mp h
  have hef : e ∈ (pathEntries cats (stdFuel cats)).filter (fun e => e.1 = id) :=
    List.mem_of_getLast?_eq_some hlast
  have hmem := List.mem_filter.mp hef
  have hid : e.1 = id := of_decide_eq_true hmem.2
  have : e = (id, v) := Prod.ext hid hv
  exact this ▸ hmem.1

theorem pathLookup_id_mem (cats : List Category) (id v : String)
    (h : pathLookup cats id = some v) : ∃ c ∈ cats, c.id = id := by
  obtain ⟨c, hc, hcid⟩ := (pathEntries_entry cats _ _ (pathLookup_mem_entries cats id v h)).1
  exact ⟨c, hc, hcid.symm⟩

theorem pathLookup_val_ne (cats : List Category) (hnames : ∀ c ∈ cats, c.name ≠ "")
    (id v : String) (h : pathLookup cats id = some v) : v ≠ "" :=
  (pathEntries_entry cats _ _ (pathLookup_mem_entries cats id v h)).2 hnames

theorem deleteCategory_ok_inv (cats : List Category) (categoryId : String)
    (newCats : List Category) (resets : List (String × String))
    (hok : deleteCategory cats categoryId = .ok (newCats, resets)) :
    newCats = cats.filter
        (fun c => !(categoryId :: descendantsOf cats categoryId).contains c.id)
    ∧ resets = (((categoryId :: descendantsOf cats categoryId).filterMap
          (pathLookup cats)).filter (fun p => p ≠ "")).map
        (fun p => (p, SYSTEM_CATEGORY_NAME)) := by
  rw [deleteCategory] at hok
  dsimp only at hok
  split at hok
  · exact absurd hok (by simp)
  · split at hok
    · exact absurd hok (by simp)
    · injection hok with h
      rw [Prod.mk.injEq] at h
      exact ⟨h.1.symm, h.2.symm⟩

theorem applyRewrites_const_target (k : String) (ps : List String) :
    ∀ txns, applyRewrites (ps.map (fun p => (p, k))) txns
      = txns.map (fun t => if t.category ∈ ps then { t with category := k } else t) := by
  induction ps with
  | nil =>
    intro txns
    simp [applyRewrites]
  | cons p ps ih =>
    intro txns
    rw [List.map_cons, applyRewrites, List.foldl_cons, ← applyRewrites, ih, List.map_map]
    apply List.map_congr_left
    intro t _
    by_cases hc : t.category = p
    · rw [Function.comp_apply, if_pos hc]
      have hmem : t.category ∈ p :: ps := by
        rw [hc]
        exact List.mem_cons_self p ps
      by_cases hk : k ∈ ps
      · rw [if_pos hk, if_pos hmem]
      · rw [if_neg hk, if_pos hmem]
    · rw [Function.comp_apply, if_neg hc]
      by_cases hm : t.category ∈ ps
      · rw [if_pos hm, if_pos (List.mem_cons_of_mem p hm)]
      · rw [if_neg hm, if_neg (fun h => (List.mem_cons.mp h).elim hc hm)]

/-- C3: for a successful delete of a non-system category, the issued reset
calls are equivalent to: every transaction whose label equals a defined
materialized path of the deleted node or of one of its (transitive)
descendants is set to the system label `SYSTEM_CATEGORY_NAME`, and every
other transaction is untouched; the set of reset paths is exactly the set of
defined paths of the deleted node and its descendants; and neither the
deleted node's id nor any descendant id occurs in the resulting collection
or in any tree build (path map) over it.  Hypotheses: category names are
non-empty (the spec's data-model invariant, enforced on every create/seed
path), and the descendant computation terminates on the current collection. -/
theorem deleteCategory_cascade (cats : List Category) (categoryId : String)
    (ds : List String) (newCats : List Category) (resets : List (String × String))
    (hnames : ∀ c ∈ cats, c.name ≠ "")
    (hds : collectDescendants cats (stdFuel cats) categoryId = some ds)
    (hok : deleteCategory cats categoryId = .ok (newCats, resets)) :
    (∀ txns, applyRewrites resets txns = txns.map (fun t =>
        if t.category ∈ (categoryId :: ds).filterMap (pathLookup cats)
        then { t with category := SYSTEM_CATEGORY_NAME } else t))
    ∧ (∀ p, p ∈ (categoryId :: ds).filterMap (pathLookup cats) ↔
        ∃ x, (x = categoryId ∨ Descendant cats categoryId x) ∧ pathLookup cats x = some p)
    ∧ (∀ x, x = categoryId ∨ Descendant cats categoryId x →
        pathLookup newCats x = none ∧ ∀ c ∈ newCats, c.id ≠ x) := by
  obtain ⟨hnc, hrs⟩ := deleteCategory_ok_inv cats categoryId newCats resets hok
  have hdo : descendantsOf cats categoryId = ds := by
    rw [descendantsOf, hds]
    rfl
  rw [hdo] at hnc hrs
  have hfil : ((categoryId :: ds).filterMap (pathLookup cats)).filter (fun p => p ≠ "")
      = (categoryId :: ds).filterMap (pathLookup cats) := by
    apply List.filter_eq_self.mpr
    intro p hp
    obtain ⟨x, _, hx⟩ := List.mem_filterMap.mp hp
    exact decide_eq_true (pathLookup_val_ne cats hnames x p hx)
  have haff : ∀ x, (x = categoryId ∨ Descendant cats categoryId x) ↔ x ∈ categoryId :: ds := by
    intro x
    rw [List.mem_cons]
    exact or_congr Iff.rfl (collectDescendants_iff_descendant cats _ _ ds hds x).symm
  refine ⟨fun txns => ?_, fun p => ?_, fun x hx => ?_⟩
  · rw [hrs, hfil, applyRewrites_const_target]
  · rw [List.mem_filterMap]
    constructor
    · rintro ⟨x, hx, hlx⟩
      exact ⟨x, (haff x).mpr hx, hlx⟩
    · rintro ⟨x, hx, hlx⟩
      exact ⟨x, (haff x).mp hx, hlx⟩
  · have hxm : x ∈ categoryId :: ds := (haff x).mp hx
    have hnotin : ∀ c ∈ newCats, c.id ≠ x := by
      intro c hc hcx
      rw [hnc] at hc
      have := List.mem_filter.mp hc
      have hcont : (categoryId :: ds).contains c.id = true :=
        List.elem_iff.mpr (hcx ▸ hxm)
      rw [hcont] at this
      exact absurd this.2 (by simp)
    refine ⟨?_, hnotin⟩
    rcases hl : pathLookup newCats x with _ | v
    · rfl
    · obtain ⟨c, hc, hcid⟩ := pathLookup_id_mem newCats x v hl
      exact absurd hcid (hnotin c hc)

/-- C3 witness: deleting `"Transport"` (child `"Fuel"`) resets transactions
labelled with either path to the system label and leaves the rest untouched,
and both nodes are gone from the resulting collection's path map, via
`deleteCategory_cascade`. -/
theorem deleteCategory_cascade_witness :
    (applyRewrites [("Transport", "Uncategorized"), ("Transport → Fuel", "Uncategorized")]
        [mkTxn "d" "x" 0 "Transport → Fuel", mkTxn "d" "y" 0 "Groceries"]
      = [mkTxn "d" "x" 0 "Transport → Fuel", mkTxn "d" "y" 0 "Groceries"].map
          (fun t => if t.category ∈ (("r" : String) :: ["c"]).filterMap (pathLookup
              [{ id := "r", name := "Transport", parent_id := none, is_system := false },
               { id := "c", name := "Fuel", parent_id := some "r", is_system := false }])
            then { t with category := SYSTEM_CATEGORY_NAME } else t))
    ∧ pathLookup ([] : List Category) "c" = none :=
  ⟨by
    have h := (deleteCategory_cascade
      [{ id := "r", name := "Transport", parent_id := none, is_system := false },
       { id := "c", name := "Fuel", parent_id := some "r", is_system := false }]
      "r" ["c"] [] [("Transport", "Uncategorized"), ("Transport → Fuel", "Uncategorized")]
      (by decide) (by decide) (by decide)).1
    exact h [mkTxn "d" "x" 0 "Transport → Fuel", mkTxn "d" "y" 0 "Groceries"],
   by
    have h := ((deleteCategory_cascade
      [{ id := "r", name := "Transport", parent_id := none, is_system := false },
       { id := "c", name := "Fuel", parent_id := some "r", is_system := false }]
      "r" ["c"] [] [("Transport", "Uncategorized"), ("Transport → Fuel", "Uncategorized")]
      (by decide) (by decide) (by decide)).2.2 "c" (Or.inr
        (Descendant.child { id := "c", name := "Fuel", parent_id := some "r", is_system := false }
          (by decide) rfl))).1
    exact h⟩

theorem reachable_mem (cats : List Category) (c : Category) (h : Reachable cats c) :
    c ∈ cats := by
  cases h with
  | root _ hc _ => exact hc
  | child _ _ _ hc _ => exact hc

theorem upChain_self_mem (cats : List Category) (c : Category) (anc : List Category)
    (h : UpChain cats c anc) : c ∈ cats := by
  cases h with
  | root _ hc _ => exact hc
  | step _ _ _ hc _ _ => exact hc

theorem upChain_mem (cats : List Category) :
    ∀ (c : Category) (anc : List Category), UpChain cats c anc → ∀ a ∈ anc, a ∈ cats := by
  intro c anc h
  induction h with
  | root _ _ _ => intro a ha; exact absurd ha (List.not_mem_nil a)
  | step c p anc _ _ hch ih =>
    intro a ha
    rcases List.mem_cons.mp ha with rfl | ha'
    · exact upChain_self_mem cats a anc hch
    · exact ih a ha'

theorem reachable_iff_upChain (cats : List Category) (c : Category) :
    Reachable cats c ↔ ∃ anc, UpChain cats c anc := by
  constructor
  · intro h
    induction h with
    | root c hc hp => exact ⟨[], UpChain.root c hc hp⟩
    | child p c _ hc hp ih =>
      obtain ⟨anc, hch⟩ := ih
      exact ⟨p :: anc, UpChain.step c p anc hc hp hch⟩
  · rintro ⟨anc, hch⟩
    induction hch with
    | root c hc hp => exact Reachable.root c hc hp
    | step c p anc hc hp _ ih => exact Reachable.child p c ih hc hp

theorem upChain_sub (cats : List Category) :
    ∀ (l1 : List Category) (y : Category) (l2 : List Category) (c : Category),
      UpChain cats c (l1 ++ y :: l2) → UpChain cats y l2 := by
  intro l1
  induction l1 with
  | nil =>
    intro y l2 c h
    cases h with
    | step _ _ _ _ _ hch => exact hch
  | cons a l1 ih =>
    intro y l2 c h
    cases h with
    | step _ _ _ _ _ hch => exact ih y l2 a hch

theorem upChain_nodup (cats : List Category) :
    ∀ (c : Category) (anc : List Category), UpChain cats c anc →
      ∃ anc', UpChain cats c anc' ∧ (c :: anc').Nodup := by
  intro c anc h
  induction h with
  | root c hc hp => exact ⟨[], UpChain.root c hc hp, by simp⟩
  | step c p anc hc hp hch ih =>
    obtain ⟨t, ht, hnd⟩ := ih
    by_cases hcin : c ∈ p :: t
    · rcases List.mem_cons.mp hcin with rfl | hct
      · exact ⟨t, ht, hnd⟩
      · obtain ⟨u, v, rfl⟩ := List.append_of_mem hct
        refine ⟨v, upChain_sub cats u c v p ht, ?_⟩
        have hsub : (c :: v).Sublist (p :: (u ++ c :: v)) :=
          ((List.sublist_append_right u (c :: v)).cons p)
        exact hnd.sublist hsub
    · exact ⟨p :: t, UpChain.step c p t hc hp ht, List.nodup_cons.mpr ⟨hcin, hnd⟩⟩

theorem buildNodePaths_child_subset (cats : List Category) (fuel : Nat)
    (par child : Category) (pp : Option String)
    (hchild : child ∈ cats) (hp : child.parent_id = some par.id) :
    ∀ e ∈ buildNodePaths cats fuel child
        (some (match pp with | some s => s ++ " → " ++ par.name | none => par.name)),
      e ∈ buildNodePaths cats (fuel + 1) par pp := by
  intro e he
  rw [buildNodePaths.eq_def]
  dsimp only
  refine List.mem_cons_of_mem _ (List.mem_flatMap.mpr ⟨child, ?_, he⟩)
  exact (mem_sortByName child _).mpr (List.mem_filter.mpr ⟨hchild, decide_eq_true hp⟩)

theorem upChain_emits (cats : List Category) :
    ∀ (c : Category) (anc : List Category), UpChain cats c anc → (c :: anc).Nodup →
      ∃ (fuel : Nat) (pp : Option String),
        stdFuel cats ≤ fuel + anc.length
        ∧ ∀ e ∈ buildNodePaths cats fuel c pp, e ∈ pathEntries cats (stdFuel cats) := by
  intro c anc h
  induction h with
  | root c hc hp =>
    intro _
    refine ⟨stdFuel cats, none, by simp, fun e he => ?_⟩
    rw [pathEntries]
    exact List.mem_flatMap.mpr
      ⟨c, (mem_sortByName c _).mpr (List.mem_filter.mpr ⟨hc, decide_eq_true hp⟩), he⟩
  | step c p anc hc hp hch ih =>
    intro hnd
    have hnd' : (p :: anc).Nodup := (List.nodup_cons.mp hnd).2
    obtain ⟨fuel, pp, hle, hsub⟩ := ih hnd'
    have hanc_le : (p :: anc).length ≤ cats.length := by
      have hsubset : (p :: anc) ⊆ cats := by
        intro a ha
        rcases List.mem_cons.mp ha with rfl | ha'
        · exact upChain_self_mem cats a anc hch
        · exact upChain_mem cats p anc hch a ha'
      exact (hnd'.subperm hsubset).length_le
    rw [stdFuel] at hle
    rw [List.length_cons] at hanc_le
    obtain ⟨f, rfl⟩ : ∃ f, fuel = f + 1 := ⟨fuel - 1, by omega⟩
    rcases pp with _ | s
    · refine ⟨f, some p.name, ?_, ?_⟩
      · rw [stdFuel, List.length_cons]
        omega
      · intro e he
        exact hsub e (buildNodePaths_child_subset cats f p c none hc hp e he)
    · refine ⟨f, some (s ++ " → " ++ p.name), ?_, ?_⟩
      · rw [stdFuel, List.length_cons]
        omega
      · intro e he
        exact hsub e (buildNodePaths_child_subset cats f p c (some s) hc hp e he)

theorem pathLookup_isSome_of_mem (cats : List Category) (id v : String)
    (h : (id, v) ∈ pathEntries cats (stdFuel cats)) :
    (pathLookup cats id).isSome = true := by
  rw [pathLookup, Option.isSome_map']
  have hf : (id, v) ∈ (pathEntries cats (stdFuel cats)).filter (fun e => e.1 = id) :=
    List.mem_filter.mpr ⟨h, by simp⟩
  rw [List.getLast?_isSome]
  intro hnil
  rw [hnil] at hf
  exact absurd hf (List.not_mem_nil _)

theorem reachable_pathLookup_isSome (cats : List Category) (c : Category)
    (hr : Reachable cats c) : (pathLookup cats c.id).isSome = true := by
  obtain ⟨anc, hch⟩ := (reachable_iff_upChain cats c).mp hr
  obtain ⟨anc', hch', hnd⟩ := upChain_nodup cats c anc hch
  obtain ⟨fuel, pp, hle, hsub⟩ := upChain_emits cats c anc' hch' hnd
  have hanc_le : (c :: anc').length ≤ cats.length := by
    have hsubset : (c :: anc') ⊆ cats := by
      intro a ha
      rcases List.mem_cons.mp ha with rfl | ha'
      · exact upChain_self_mem cats a anc' hch'
      · exact upChain_mem cats c anc' hch' a ha'
    exact (hnd.subperm hsubset).length_le
  rw [stdFuel] at hle
  rw [List.length_cons] at hanc_le
  obtain ⟨f, rfl⟩ : ∃ f, fuel = f + 1 := ⟨fuel - 1, by omega⟩
  have hhead : ∃ fp, (c.id, fp) ∈ buildNodePaths cats (f + 1) c pp := by
    rw [buildNodePaths.eq_def]
    dsimp only
    exact ⟨_, List.mem_cons_self _ _⟩
  obtain ⟨fp, hfp⟩ := hhead
  exact pathLookup_isSome_of_mem cats c.id fp (hsub _ hfp)

theorem buildNodePaths_entry_reachable (cats : List Category) :
    ∀ (fuel : Nat) (c : Category) (pp : Option String), Reachable cats c →
      ∀ e ∈ buildNodePaths cats fuel c pp,
        ∃ c', c' ∈ cats ∧ c'.id = e.1 ∧ Reachable cats c' := by
  intro fuel
  induction fuel with
  | zero =>
    intro c pp _ e he
    rw [buildNodePaths.eq_def] at he
    exact absurd he (List.not_mem_nil e)
  | succ n ih =>
    intro c pp hr e he
    rw [buildNodePaths.eq_def] at he
    dsimp only at he
    rcases List.mem_cons.mp he with rfl | he'
    · exact ⟨c, reachable_mem cats c hr, rfl, hr⟩
    · obtain ⟨child, hch, hce⟩ := List.mem_flatMap.mp he'
      obtain ⟨hchm, hchp⟩ := childrenOf_mem cats (some c.id) child ((mem_sortByName child _).mp hch)
      exact ih child _ (Reachable.child c child hr hchm hchp) e hce

theorem pathEntries_entry_reachable (cats : List Category) (fuel : Nat) (e : String × String)
    (he : e ∈ pathEntries cats fuel) :
    ∃ c', c' ∈ cats ∧ c'.id = e.1 ∧ Reachable cats c' := by
  rw [pathEntries] at he
  obtain ⟨root, hr, hre⟩ := List.mem_flatMap.mp he
  obtain ⟨hrm, hrp⟩ := childrenOf_mem cats none root ((mem_sortByName root _).mp hr)
  exact buildNodePaths_entry_reachable cats fuel root none (Reachable.root root hrm hrp) e hre

theorem mem_insertOption (o x : CategoryOption) :
    ∀ (l : List CategoryOption), x ∈ insertOption o l ↔ x = o ∨ x ∈ l := by
  intro l
  induction l with
  | nil => simp [insertOption]
  | cons p rest ih =>
    rw [insertOption]
    by_cases h : (o.isSystem && !p.isSystem) || (o.isSystem = p.isSystem && strLe o.label p.label)
    · rw [if_pos h]
      simp only [List.mem_cons]
    · rw [if_neg h]
      simp only [List.mem_cons, ih]
      tauto

theorem mem_optionsFold (x : CategoryOption) :
    ∀ (l : List CategoryOption), x ∈ l.foldr insertOption [] ↔ x ∈ l := by
  intro l
  induction l with
  | nil => simp
  | cons o rest ih =>
    rw [List.foldr_cons, mem_insertOption, ih, List.mem_cons]

/-- C10: the path map built by `buildTreeAndPaths` has an entry for an id
exactly when some member category with that id is reachable from a root
(null `parent_id`) through parent links to members of the collection; a
member whose id has no path entry (in particular one whose `parent_id`
references an id absent from the collection, or one lying on a parent
cycle) is listed in `categoryOptions` with its bare name as its label. -/
theorem pathMap_reachability (cats : List Category) (id : String) :
    ((pathLookup cats id).isSome = true ↔ ∃ c, c ∈ cats ∧ c.id = id ∧ Reachable cats c)
    ∧ (∀ c ∈ cats, pathLookup cats c.id = none →
        ∃ o ∈ categoryOptions cats, o.id = c.id ∧ o.label = c.name ∧ o.isSystem = c.is_system)
    ∧ (∀ c ∈ cats, ∀ p, (cats.map (fun c => c.id)).Nodup → c.parent_id = some p →
        (∀ c' ∈ cats, c'.id ≠ p) → pathLookup cats c.id = none) := by
  have hmp : ∀ i, (pathLookup cats i).isSome = true →
      ∃ c, c ∈ cats ∧ c.id = i ∧ Reachable cats c := by
    intro i hs
    obtain ⟨v, hv⟩ := Option.isSome_iff_exists.mp hs
    exact pathEntries_entry_reachable cats (stdFuel cats) (i, v)
      (pathLookup_mem_entries cats i v hv)
  refine ⟨⟨hmp id, ?_⟩, fun c hc hl => ?_, fun c hc p hnodup hp habs => ?_⟩
  · rintro ⟨c, _, rfl, hr⟩
    exact reachable_pathLookup_isSome cats c hr
  · rw [categoryOptions, List.isEmpty_eq_false.mpr (List.ne_nil_of_mem hc)]
    simp only [Bool.false_eq_true, if_false]
    refine ⟨{ id := c.id, label := c.name, isSystem := c.is_system }, ?_, rfl, rfl, rfl⟩
    rw [mem_optionsFold]
    refine List.mem_map.mpr ⟨c, hc, ?_⟩
    rw [hl]
    rfl
  · rcases hl : pathLookup cats c.id with _ | v
    · rfl
    · obtain ⟨c', hc', hcid, hr⟩ := hmp c.id (by rw [hl]; rfl)
      have hcc : c' = c := List.inj_on_of_nodup_map hnodup hc' hc hcid
      subst hcc
      cases hr with
      | root _ _ hpn => rw [hp] at hpn; exact absurd hpn (by simp)
      | child par _ hrp hcm hpp =>
        rw [hp] at hpp
        have hpid : p = par.id := by
          injection hpp
        exact absurd hpid.symm (habs par (reachable_mem cats par hrp))

/-- C10 witness: a single category whose `parent_id` references an absent id
gets no path entry and is listed with its bare name, via
`pathMap_reachability`. -/
theorem pathMap_reachability_witness :
    (∃ o ∈ categoryOptions
        [{ id := "a", name := "A", parent_id := some "ghost", is_system := false }],
      o.id = "a" ∧ o.label = "A" ∧ o.isSystem = false)
    ∧ pathLookup [{ id := "a", name := "A", parent_id := some "ghost", is_system := false }]
        "a" = none :=
  ⟨(pathMap_reachability
      [{ id := "a", name := "A", parent_id := some "ghost", is_system := false }] "a").2.1
      { id := "a", name := "A", parent_id := some "ghost", is_system := false }
      (by decide) (by decide),
   (pathMap_reachability
      [{ id := "a", name := "A", parent_id := some "ghost", is_system := false }] "a").2.2
      { id := "a", name := "A", parent_id := some "ghost", is_system := false }
      (by decide) "ghost" (by decide) rfl (by decide)⟩
